import Mathlib

/-!
Verification of the Unicycler assembly-graph engine (assembly_graph.py).

We shallowly embed the graph data model and the operations the claims
concern.  Python dicts are modelled as association lists (`List (k × v)`)
preserving insertion order, matching CPython dict semantics; Python lists
are Lean lists; floats are rationals (`Rat`, with `WithTop Rat` where the
code manipulates float infinity); operations that can raise
(ZeroDivisionError, ValueError, KeyError, AssertionError, IndexError)
return `Option`, with `none` for the exception.
-/

namespace Unicycler

/-- Python dict membership test, as in the source's guards of the form
`if start in self.forward_links`. -/
def hasKey {α β : Type} [BEq α] (m : List (α × β)) (k : α) : Bool :=
  (m.lookup k).isSome

/-- Python dict read of a list value.  Used only where the source guards
the read with a membership test or the key is known to exist, so the
default `[]` is never observable. -/
def getList {α : Type} [BEq α] (m : List (α × List α)) (k : α) : List α :=
  (m.lookup k).getD []

/-- Python dict assignment: replaces the value in place when the key
exists, otherwise appends the binding at the end, as CPython does. -/
def dictSet {α β : Type} [BEq α] : List (α × β) → α → β → List (α × β)
  | [], k, v => [(k, v)]
  | p :: rest, k, v => if p.1 == k then (k, v) :: rest else p :: dictSet rest k v

/-- Python del of a dict key: removes the (first) binding of the key. -/
def dictDelete {α β : Type} [BEq α] : List (α × β) → α → List (α × β)
  | [], _ => []
  | p :: rest, k => if p.1 == k then rest else p :: dictDelete rest k

/-- Python list.remove: deletes the first occurrence of the value; `none`
models the ValueError raised when the value is absent. -/
def listRemove {α : Type} [BEq α] : List α → α → Option (List α)
  | [], _ => none
  | x :: rest, v => if x == v then some rest else (listRemove rest v).map (x :: ·)

/-- Building a Python set from iterated insertions, keeping
first-occurrence order.  (CPython set iteration order is implementation
defined; only the underlying element set matters to the claims below, and
we fix first-insertion order as the embedding's choice.) -/
def pySetAdd {α : Type} [BEq α] (s : List α) (x : α) : List α :=
  if s.contains x then s else s ++ [x]

def pySetOfList {α : Type} [BEq α] (l : List α) : List α :=
  l.foldl pySetAdd []

/-- Python set union-update. -/
def pySetUpdate {α : Type} [BEq α] (s : List α) (l : List α) : List α :=
  l.foldl pySetAdd s

/-- Python set equality: same elements regardless of order or
multiplicity. -/
def pySetEq {α : Type} [BEq α] (s t : List α) : Bool :=
  s.all t.contains && t.all s.contains

/-- Embedding of complement_base.  The source indexes the reverse string
with str.find, which returns -1 for an unknown base and therefore picks
the final character N of the reverse string. -/
def complementBase (base : Char) : Char :=
  let forward := "ATGCatgcRYSWKMryswkmBDHVbdhvNn.-?".toList
  let reverse := "TACGtacgYRSWMKyrswmkVHDBvhdbNn.-?N".toList
  match (forward.zip reverse).lookup base with
  | some c => c
  | none => 'N'

/-- Embedding of reverse_complement. -/
def reverseComplement (seq : List Char) : List Char :=
  (seq.reverse).map complementBase

/-- Embedding of the Bridge objects consumed by the engine (only the
fields the engine reads; the three variants are uniform for apply_bridge,
so the variant tag is not needed here). -/
structure Bridge where
  start_segment : Int
  end_segment : Int
  graph_path : List Int
  bridge_sequence : List Char
  depth : Rat
  quality : Rat
  deriving DecidableEq

/-- Embedding of the Segment class.  A segment created with
positive = True and build_other_sequence_if_necessary has its reverse
sequence equal to the reverse complement of the given sequence. -/
structure Segment where
  number : Nat
  depth : Rat
  forward_sequence : List Char
  reverse_sequence : List Char
  bridge : Option Bridge
  graph_path : Option (List Int)
  deriving DecidableEq

/-- Segment construction as done throughout the source: Segment(num,
depth, sequence, True) followed by build_other_sequence_if_necessary. -/
def mkSegment (number : Nat) (depth : Rat) (sequence : List Char) : Segment :=
  { number := number, depth := depth, forward_sequence := sequence,
    reverse_sequence := reverseComplement sequence, bridge := none, graph_path := none }

/-- Segment construction as done in apply_bridge: Segment(num, depth,
sequence, True, bridge, graph_path). -/
def mkBridgeSegment (number : Nat) (depth : Rat) (sequence : List Char)
    (bridge : Bridge) (graph_path : List Int) : Segment :=
  { number := number, depth := depth, forward_sequence := sequence,
    reverse_sequence := reverseComplement sequence, bridge := some bridge,
    graph_path := some graph_path }

/-- Embedding of the AssemblyGraph state: segment map, the two mirrored
signed adjacency maps, the copy-depth map, the path registry and the
graph-wide overlap. -/
structure AssemblyGraph where
  segments : List (Nat × Segment)
  forward_links : List (Int × List Int)
  reverse_links : List (Int × List Int)
  copy_depths : List (Nat × List Rat)
  paths : List (String × List Int)
  overlap : Nat
  deriving DecidableEq

/-- One of the four conditional updates of add_link: create the key with
an empty list if needed, then append the value unless already present. -/
def dictAppendUnique (m : List (Int × List Int)) (k v : Int) : List (Int × List Int) :=
  let m1 := if hasKey m k then m else m ++ [(k, [])]
  let l := getList m1 k
  if l.contains v then m1 else dictSet m1 k (l ++ [v])

/-- Embedding of AssemblyGraph.add_link: inserts the link and its
reverse-complement twin into both adjacency maps, idempotently. -/
def add_link (g : AssemblyGraph) (start e : Int) : AssemblyGraph :=
  { g with
    forward_links := dictAppendUnique (dictAppendUnique g.forward_links start e) (-e) (-start),
    reverse_links := dictAppendUnique (dictAppendUnique g.reverse_links e start) (-start) (-e) }

/-- One conditional removal step of remove_link: if the key is present,
list.remove the value (ValueError, hence `none`, when absent from the
list); keys that are absent are skipped. -/
def removeFromEntry (m : List (Int × List Int)) (k v : Int) : Option (List (Int × List Int)) :=
  if hasKey m k then
    match listRemove (getList m k) v with
    | none => none
    | some l => some (dictSet m k l)
  else some m

/-- Embedding of AssemblyGraph.remove_link, performing the source's four
conditional removals in order. -/
def remove_link (g : AssemblyGraph) (start e : Int) : Option AssemblyGraph :=
  match removeFromEntry g.forward_links start e with
  | none => none
  | some fwd1 =>
    match removeFromEntry fwd1 (-e) (-start) with
    | none => none
    | some fwd2 =>
      match removeFromEntry g.reverse_links e start with
      | none => none
      | some rev1 =>
        match removeFromEntry rev1 (-start) (-e) with
        | none => none
        | some rev2 => some { g with forward_links := fwd2, reverse_links := rev2 }

/-- Embedding of AssemblyGraph.dead_end_count for one signed id. -/
def dead_end_count (g : AssemblyGraph) (seg_num : Int) : Nat :=
  (if ¬ hasKey g.forward_links seg_num ∨ getList g.forward_links seg_num = [] then 1 else 0) +
  (if ¬ hasKey g.reverse_links seg_num ∨ getList g.reverse_links seg_num = [] then 1 else 0)

/-- In Python, comparing a list with the integer 0 using the equality
operator always yields False; this function records that fact, which the
source's dead_end_change_if_path_deleted relies on (by accident). -/
def pyListEqIntZero (_l : List Int) : Bool :=
  false

/-- Embedding of AssemblyGraph.dead_end_change_if_path_deleted exactly as
written in the source, including its two slips: the end of the path is
read from index 1 rather than the last index, and the two final tests
compare a list with the integer 0 (always False in Python), so the
existing dead ends of the path are never subtracted.  The unguarded
reverse_links and forward_links reads of the neighbour loops are embedded
with an empty default; on mirror-consistent graphs the keys exist.
Returns `none` for the IndexError raised on paths shorter than 2. -/
def dead_end_change_if_path_deleted (g : AssemblyGraph) (path_segments : List Int) :
    Option Int :=
  match path_segments with
  | start :: e :: _ =>
    let downstream_segments := if hasKey g.forward_links e then getList g.forward_links e else []
    let pot1 := (downstream_segments.filter
      (fun d => (getList g.reverse_links d).length = 1)).length
    let upstream_segments := if hasKey g.reverse_links start then getList g.reverse_links start else []
    let pot2 := (upstream_segments.filter
      (fun u => (getList g.forward_links u).length = 1)).length
    let dead_ends : Int :=
      (if pyListEqIntZero downstream_segments then 1 else 0) +
      (if pyListEqIntZero upstream_segments then 1 else 0)
    some ((pot1 : Int) + (pot2 : Int) - dead_ends)
  | _ => none

/-- The claim's reading of dead_end_change_if_path_deleted, following the
specification's words: neighbours are taken at the two endpoints of the
path (successors of the last element, predecessors of the first), and the
dead ends that already exist at the path's ends (no outgoing links from
the last element, no incoming links into the first) are subtracted. -/
def dead_end_change_if_path_deleted_spec (g : AssemblyGraph) (path_segments : List Int) :
    Option Int :=
  match path_segments, path_segments.getLast? with
  | start :: _ :: _, some e =>
    let downstream_segments := if hasKey g.forward_links e then getList g.forward_links e else []
    let pot1 := (downstream_segments.filter
      (fun d => (getList g.reverse_links d).length = 1)).length
    let upstream_segments := if hasKey g.reverse_links start then getList g.reverse_links start else []
    let pot2 := (upstream_segments.filter
      (fun u => (getList g.forward_links u).length = 1)).length
    let dead_ends : Int :=
      (if downstream_segments = [] then 1 else 0) +
      (if upstream_segments = [] then 1 else 0)
    some ((pot1 : Int) + (pot2 : Int) - dead_ends)
  | _, _ => none

/-- Embedding of is_link_positive, which decides which member of a
reverse-complement link pair is emitted in GFA output. -/
def is_link_positive (start e : Int) : Bool :=
  if 0 < start ∧ 0 < e then true
  else if start < 0 ∧ e < 0 then false
  else if start = -e then true
  else |start| > |e|

/-- Embedding of the link selection of get_all_gfa_link_lines, as the
list of emitted (start, end) pairs in iteration order (gfa_link_line
renders each pair injectively, so the pair list determines the emitted
lines). -/
def gfa_link_pairs (g : AssemblyGraph) : List (Int × Int) :=
  g.forward_links.flatMap
    (fun p => (p.2.filter (fun e => is_link_positive p.1 e)).map (fun e => (p.1, e)))

/-- Embedding of get_next_available_seg_number: one more than the largest
segment number.  The fold with initial value 0 equals the Python max over
the keys for the nonempty, positive-keyed segment maps the source uses. -/
def get_next_available_seg_number (g : AssemblyGraph) : Nat :=
  (g.segments.map Prod.fst).foldl max 0 + 1

/-- Python min over a nonempty list with a key function: returns the
first element achieving the minimal key. -/
def pyMinBy (f : Rat → Rat) : List Rat → Option Rat
  | [] => none
  | x :: rest => some (rest.foldl (fun best y => if f y < f best then y else best) x)

/-- Embedding of remove_segment_depth: floors the segment depth at 0 and
deletes the copy-depth entry closest to the removed depth (first such
entry, matching list.index). -/
def remove_segment_depth (g : AssemblyGraph) (seg_num : Int) (depth_to_remove : Rat) :
    AssemblyGraph :=
  let n := seg_num.natAbs
  match g.segments.lookup n with
  | none => g
  | some seg =>
    let seg2 := { seg with depth := max 0 (seg.depth - depth_to_remove) }
    let g2 := { g with segments := dictSet g.segments n seg2 }
    match g2.copy_depths.lookup n with
    | none => g2
    | some cds =>
      if cds = [] then g2
      else
        match pyMinBy (fun x => |x - depth_to_remove|) cds with
        | none => g2
        | some closest =>
          { g2 with copy_depths := dictSet g2.copy_depths n (cds.erase closest) }

/-- The start-side deletion loop of apply_bridge.  CPython iterates the
live list self.forward_links[start] by index while remove_link shortens
it in place, so the element after a removed one shifts into the removed
slot and is skipped; the embedding reproduces the index-based iteration.
The fuel only bounds the iteration count; the initial list length always
suffices. -/
def apply_bridge_start_loop : Nat → Nat → Int → AssemblyGraph → Option AssemblyGraph
  | 0, _, _, g => some g
  | fuel + 1, i, start, g =>
    let lst := getList g.forward_links start
    if h : i < lst.length then
      match remove_link g start (lst.get ⟨i, h⟩) with
      | none => none
      | some g2 => apply_bridge_start_loop fuel (i + 1) start g2
    else some g

/-- The end-side deletion loop of apply_bridge, iterating the live list
self.reverse_links[end] by index exactly as the start-side loop does. -/
def apply_bridge_end_loop : Nat → Nat → Int → AssemblyGraph → Option AssemblyGraph
  | 0, _, _, g => some g
  | fuel + 1, i, e, g =>
    let lst := getList g.reverse_links e
    if h : i < lst.length then
      match remove_link g (lst.get ⟨i, h⟩) e with
      | none => none
      | some g2 => apply_bridge_end_loop fuel (i + 1) e g2
    else some g

/-- Embedding of AssemblyGraph.apply_bridge: delete the links off the
start and end segments (through the index-based loops above), create the
new bridge segment carrying the bridge's depth, sequence and provenance,
link it in, and subtract the bridge depth from the interior segments. -/
def apply_bridge (g : AssemblyGraph) (bridge : Bridge) (start e : Int)
    (sequence : List Char) (graph_path : List Int) : Option AssemblyGraph :=
  let step1 := if hasKey g.forward_links start then
      apply_bridge_start_loop (getList g.forward_links start).length 0 start g
    else some g
  match step1 with
  | none => none
  | some g1 =>
    let step2 := if hasKey g1.reverse_links e then
        apply_bridge_end_loop (getList g1.reverse_links e).length 0 e g1
      else some g1
    match step2 with
    | none => none
    | some g2 =>
      let new_seg_num := get_next_available_seg_number g2
      let new_seg := mkBridgeSegment new_seg_num bridge.depth sequence bridge graph_path
      let g3 := { g2 with segments := dictSet g2.segments new_seg_num new_seg }
      let g4 := add_link g3 start (new_seg_num : Int)
      let g5 := add_link g4 (new_seg_num : Int) e
      some (graph_path.foldl (fun gacc seg => remove_segment_depth gacc seg bridge.depth) g5)

/-- The specification's path-consistency link half (section 8): every
consecutive pair of a registered path has a forward link. -/
def path_links_ok (g : AssemblyGraph) : List Int → Bool
  | a :: b :: rest => (getList g.forward_links a).contains b && path_links_ok g (b :: rest)
  | _ => true

/-- The specification's path-consistency liveness half: every referenced
signed id resolves to a live segment. -/
def path_ids_live (g : AssemblyGraph) (p : List Int) : Bool :=
  p.all (fun x => hasKey g.segments x.natAbs)

/-- The path-consistency invariant over the whole registry. -/
def paths_consistent (g : AssemblyGraph) : Bool :=
  g.paths.all (fun q => path_links_ok g q.2 && path_ids_live g q.2)

/-- Embedding of get_seq_from_signed_seg_num (the source assumes the
segment is present; the default is unobservable on the graphs used). -/
def get_seq_from_signed_seg_num (g : AssemblyGraph) (signed_num : Int) : List Char :=
  if 0 < signed_num then
    ((g.segments.lookup signed_num.natAbs).map Segment.forward_sequence).getD []
  else
    ((g.segments.lookup signed_num.natAbs).map Segment.reverse_sequence).getD []

/-- Python slicing of the form seq[-k:]: the whole sequence when k = 0
(as in CPython, where -0 is 0), otherwise the last k characters. -/
def pyTailSlice (k : Nat) (s : List Char) : List Char :=
  if k = 0 then s else s.drop (s.length - k)

/-- Embedding of insert_num_in_list: inserts insert_val after every
element equal to val_1 that is immediately followed by val_2. -/
def insert_num_in_list (lst : List Int) (val_1 val_2 insert_val : Int) : List Int :=
  match lst with
  | [] => []
  | [x] => [x]
  | x :: y :: rest =>
      if x = val_1 ∧ y = val_2 then
        x :: insert_val :: insert_num_in_list (y :: rest) val_1 val_2 insert_val
      else x :: insert_num_in_list (y :: rest) val_1 val_2 insert_val

/-- One junction search of repair_multi_way_junctions: scan the signed
seg_nums in order and return the first multi-way junction's (starting,
ending) signed-id sets. -/
def find_junction (g : AssemblyGraph) : List Int → Option (List Int × List Int)
  | [] => none
  | s :: rest =>
    if hasKey g.forward_links s then
      let ending_segs := pySetOfList (getList g.forward_links s)
      if ending_segs.length < 2 then find_junction g rest
      else
        let starting_segs := ending_segs.foldl (fun acc e =>
          if hasKey g.reverse_links e ∧ getList g.reverse_links e ≠ [] then
            pySetUpdate acc (getList g.reverse_links e)
          else acc) []
        if starting_segs.length < 2 then find_junction g rest
        else
          let ending_segs_2 := starting_segs.foldl (fun acc t =>
            if hasKey g.forward_links t ∧ getList g.forward_links t ≠ [] then
              pySetUpdate acc (getList g.forward_links t)
            else acc) []
          if pySetEq ending_segs_2 ending_segs then some (starting_segs, ending_segs)
          else find_junction g rest
    else find_junction g rest

/-- The junction rewrite of repair_multi_way_junctions: check the shared
overlap sequences (AssertionError gives `none`), create the bridge
segment, redirect every starting and ending segment's links through it by
direct dict assignment, and insert the bridge id into any path that
crossed the junction. -/
def repair_junction (g : AssemblyGraph) (starting_segs ending_segs : List Int) :
    Option AssemblyGraph :=
  match ending_segs with
  | [] => none
  | e0 :: _ =>
    let bridge_seq := (get_seq_from_signed_seg_num g e0).take g.overlap
    if starting_segs.all
         (fun s => pyTailSlice g.overlap (get_seq_from_signed_seg_num g s) == bridge_seq) ∧
       ending_segs.all
         (fun e => (get_seq_from_signed_seg_num g e).take g.overlap == bridge_seq) then
      let bridge_num := get_next_available_seg_number g
      let start_seg_depth_sum := (starting_segs.map
        (fun s => ((g.segments.lookup s.natAbs).map Segment.depth).getD 0)).sum
      let end_seg_depth_sum := (ending_segs.map
        (fun e => ((g.segments.lookup e.natAbs).map Segment.depth).getD 0)).sum
      let bridge_depth := (start_seg_depth_sum + end_seg_depth_sum) / 2
      let bridge_seg := mkSegment bridge_num bridge_depth bridge_seq
      let segs2 := dictSet g.segments bridge_num bridge_seg
      let fwd1 := starting_segs.foldl (fun m s => dictSet m s [(bridge_num : Int)])
        g.forward_links
      let rev1 := starting_segs.foldl (fun m s => dictSet m (-s) [-(bridge_num : Int)])
        g.reverse_links
      let rev2 := ending_segs.foldl (fun m e => dictSet m e [(bridge_num : Int)]) rev1
      let fwd2 := ending_segs.foldl (fun m e => dictSet m (-e) [-(bridge_num : Int)]) fwd1
      let fwd3 := dictSet fwd2 (bridge_num : Int) ending_segs
      let rev3 := dictSet rev2 (bridge_num : Int) starting_segs
      let rev4 := dictSet rev3 (-(bridge_num : Int)) (ending_segs.map (fun x => -x))
      let fwd4 := dictSet fwd3 (-(bridge_num : Int)) (starting_segs.map (fun x => -x))
      let paths2 := g.paths.map (fun q =>
        (q.1, starting_segs.foldl (fun pl s =>
          ending_segs.foldl (fun pl2 e =>
            insert_num_in_list (insert_num_in_list pl2 s e (bridge_num : Int))
              (-e) (-s) (-(bridge_num : Int))) pl) q.2))
      some { g with segments := segs2, forward_links := fwd4, reverse_links := rev4,
                    paths := paths2 }
    else none

/-- Embedding of the outer while-loop of repair_multi_way_junctions with
explicit fuel: each iteration snapshots the signed seg_nums, finds the
first junction and rewrites it, returning the graph only when no junction
remains (fuel exhaustion yields `none`, so a `some` result is a genuinely
completed run). -/
def repair_multi_way_junctions : Nat → AssemblyGraph → Option AssemblyGraph
  | 0, _ => none
  | fuel + 1, g =>
    let seg_nums := (g.segments.map (fun p => (p.1 : Int))) ++
                    (g.segments.map (fun p => -(p.1 : Int)))
    match find_junction g seg_nums with
    | none => some g
    | some (starting_segs, ending_segs) =>
      match repair_junction g starting_segs ending_segs with
      | none => none
      | some g2 => repair_multi_way_junctions fuel g2

/-- The C2 strand-symmetry invariant: for every link a -> b recorded in
forward_links, the twin -b -> -a appears in forward_links exactly once,
and reverse_links is the exact mirror of forward_links (b in
forward_links[a] iff a in reverse_links[b], checked from both sides). -/
def links_invariant (g : AssemblyGraph) : Bool :=
  (g.forward_links.all (fun p => p.2.all (fun b =>
      ((getList g.forward_links (-b)).count (-p.1) == 1) &&
      (getList g.reverse_links b).contains p.1))) &&
  (g.reverse_links.all (fun p => p.2.all (fun a =>
      (getList g.forward_links a).contains p.1)))

/-- Embedding of get_error: relative error of assigning the source value
to the target value, with float('inf') (the top of `WithTop Rat`) when
the target is not positive. -/
def get_error (source target : Rat) : WithTop Rat :=
  if 0 < target then ((|source - target| / target : Rat) : WithTop Rat) else ⊤

/-- Stable descending insertion used to model Python
sorted(..., reverse=True): an element is placed before the first element
it is greater than or equal to, keeping earlier elements first among
equals as Python's stable sort does. -/
def insertDesc (x : Rat) : List Rat → List Rat
  | [] => [x]
  | y :: rest => if x ≥ y then x :: y :: rest else y :: insertDesc x rest

def sortDesc (l : List Rat) : List Rat :=
  l.foldr insertDesc []

/-- Embedding of scale_copy_depths: scales the source depths so their sum
matches the target depth and returns the scaled depths sorted descending
together with the error.  The scaling factor is computed by division
before any guard, so a zero source-depth sum raises ZeroDivisionError
(`none`). -/
def scale_copy_depths (target_depth : Rat) (source_depths : List Rat) :
    Option (List Rat × WithTop Rat) :=
  let source_depth_sum := source_depths.sum
  if source_depth_sum = 0 then none
  else
    let scaling_factor := target_depth / source_depth_sum
    let scaled_depths := sortDesc (source_depths.map (fun x => scaling_factor * x))
    some (scaled_depths, get_error source_depth_sum target_depth)

/-- Embedding of Segment.get_length. -/
def Segment.get_length (s : Segment) : Nat := s.forward_sequence.length

/-- Embedding of Segment.get_length_no_overlap (Python int subtraction,
so the value may be negative when the overlap exceeds the length). -/
def Segment.get_length_no_overlap (s : Segment) (overlap : Nat) : Int :=
  (s.forward_sequence.length : Int) - (overlap : Int)

/-- Stable ascending insertion by depth, modelling Python
sorted(segment_list, key=lambda x: x.depth). -/
def insertByDepth (x : Segment) : List Segment → List Segment
  | [] => [x]
  | y :: rest => if x.depth ≤ y.depth then x :: y :: rest else y :: insertByDepth x rest

def pySortByDepth (l : List Segment) : List Segment :=
  l.foldr insertByDepth []

/-- The accumulation loop of get_median_read_depth: first segment whose
cumulative overlap-free length reaches the halfway mark. -/
def median_loop (overlap : Nat) (halfway : Int) : Int → List Segment → Rat
  | _, [] => 0
  | acc, s :: rest =>
      let acc2 := acc + s.get_length_no_overlap overlap
      if acc2 ≥ halfway then s.depth else median_loop overlap halfway acc2 rest

/-- Embedding of get_median_read_depth over the whole graph: stable sort
by depth, halve the total overlap-free length with floor division, and
walk the sorted segments. -/
def get_median_read_depth (g : AssemblyGraph) : Rat :=
  let sorted_segments := pySortByDepth (g.segments.map Prod.snd)
  let total_length : Int :=
    (sorted_segments.map (fun s => s.get_length_no_overlap g.overlap)).sum
  let halfway_length := Int.fdiv total_length 2
  median_loop g.overlap halfway_length 0 sorted_segments

/-- Embedding of get_total_length. -/
def get_total_length (g : AssemblyGraph) : Nat :=
  ((g.segments.map Prod.snd).map Segment.get_length).sum

/-- Embedding of get_base_count_in_depth_range. -/
def get_base_count_in_depth_range (g : AssemblyGraph) (min_depth max_depth : Rat) : Nat :=
  ((((g.segments.map Prod.snd).filter
      (fun s => min_depth ≤ s.depth ∧ s.depth ≤ max_depth)).map Segment.get_length)).sum

/-- The single-copy-depth seeding step of determine_copy_depth (source
lines 891-905): compare the base counts near half and near double the
median and lower the single-copy depth to half the median when the
half-median peak dominates and reaches the 10 percent threshold
(min_half_median_for_diploid = 0.1; the float constants 0.4, 0.6, 1.6,
2.4, 0.1 are the rationals 2/5, 3/5, 8/5, 12/5, 1/10 here).  `none`
models the ZeroDivisionError on a graph with zero total bases. -/
def determine_single_copy_depth (g : AssemblyGraph) : Option Rat :=
  let median_depth := get_median_read_depth g
  let bases_near_half_median :=
    get_base_count_in_depth_range g (median_depth * (2/5)) (median_depth * (3/5))
  let bases_near_double_median :=
    get_base_count_in_depth_range g (median_depth * (8/5)) (median_depth * (12/5))
  let total_graph_bases := get_total_length g
  if total_graph_bases = 0 then none
  else
    let half_median_frac : Rat := (bases_near_half_median : Rat) / (total_graph_bases : Rat)
    let double_median_frac : Rat := (bases_near_double_median : Rat) / (total_graph_bases : Rat)
    if half_median_frac > double_median_frac ∧ half_median_frac ≥ 1/10 then
      some (median_depth / 2)
    else some median_depth

/-- First index at which pat occurs as a contiguous subsequence,
mirroring the scan of find_replace_in_list (which tests
lst[i:i+len(pattern)] == pattern at each i; the source is only called
with nonempty patterns). -/
def find_pattern_index (pat : List Int) : List Int → Option Nat
  | [] => if pat.isPrefixOf ([] : List Int) then some 0 else none
  | x :: t => if pat.isPrefixOf (x :: t) then some 0
              else (find_pattern_index pat t).map (fun i => i + 1)

/-- The body of find_replace_in_list: repeatedly replace the first
occurrence of the pattern, rescanning from the start, as the source's
while loop does.  The fuel only bounds the number of replacements; the
wrapper passes one more than the list length, which suffices whenever the
pattern is longer than the replacement (the source's use). -/
def find_replace_go (pat rep : List Int) : Nat → List Int → List Int
  | 0, lst => lst
  | fuel + 1, lst =>
    match find_pattern_index pat lst with
    | none => lst
    | some i => find_replace_go pat rep fuel (lst.take i ++ rep ++ lst.drop (i + pat.length))

/-- Embedding of find_replace_in_list. -/
def find_replace_in_list (lst pat rep : List Int) : List Int :=
  find_replace_go pat rep (lst.length + 1) lst

/-- The chunks of a list between occurrences of seg: the source's while
loop collects path[:i] for the first occurrence index i, recurses on
path[i+1:], and finally appends the remainder; this structural recursion
produces exactly those chunks in order. -/
def split_path_go (seg : Int) : List Int → List (List Int)
  | [] => [[]]
  | x :: rest =>
    if x = seg then [] :: split_path_go seg rest
    else match split_path_go seg rest with
         | [] => [[x]]
         | part :: parts => (x :: part) :: parts

/-- Embedding of split_path: the chunks around seg, keeping only those of
length greater than 1. -/
def split_path (path : List Int) (seg : Int) : List (List Int) :=
  (split_path_go seg path).filter (fun x => x.length > 1)

/-- Embedding of split_path_multiple: split every part on every seg. -/
def split_path_multiple (path : List Int) (segs : List Int) : List (List Int) :=
  segs.foldl (fun path_parts seg => path_parts.flatMap (fun part => split_path part seg)) [path]

/-- The path-registry rewrite of merge_simple_path (source lines
499-516): on the registry copied before the old segments are removed,
replace the merged chain and its flipped reverse complement by the new
id, split every path on the remaining old ids, keep a single fragment
under the original name, enumerate several fragments with suffixes _1,
_2, ..., and drop paths with no fragment left.  The source ends with
self.paths = new_paths, so this function is the whole effect of
merge_simple_path on the registry. -/
def merge_simple_path_paths (paths : List (String × List Int)) (merge_path : List Int)
    (new_seg_num : Int) : List (String × List Int) :=
  let flipped_merge_path := (merge_path.reverse).map (fun x => -x)
  let paths_copy := paths.map (fun q =>
    (q.1, find_replace_in_list
            (find_replace_in_list q.2 merge_path [new_seg_num])
            flipped_merge_path [-new_seg_num]))
  paths_copy.flatMap (fun q =>
    let split_paths := split_path_multiple q.2 (merge_path ++ flipped_merge_path)
    if split_paths.length = 1 then [(q.1, split_paths.headD [])]
    else if split_paths.length > 1 then
      split_paths.enum.map (fun p => (q.1 ++ "_" ++ toString (p.1 + 1), p.2))
    else [])

/-- Embedding of lead_exclusively_to: the first segment's only forward
link is the second segment. -/
def lead_exclusively_to (g : AssemblyGraph) (segment_num_1 segment_num_2 : Int) : Bool :=
  if hasKey g.forward_links segment_num_1 then
    getList g.forward_links segment_num_1 == [segment_num_2]
  else false

/-- Embedding of lead_exclusively_from. -/
def lead_exclusively_from (g : AssemblyGraph) (segment_num_1 segment_num_2 : Int) : Bool :=
  if hasKey g.reverse_links segment_num_1 then
    getList g.reverse_links segment_num_1 == [segment_num_2]
  else false

/-- Embedding of get_exclusive_inputs: unsigned numbers of the
predecessors whose sole successor is the given segment. -/
def get_exclusive_inputs (g : AssemblyGraph) (segment_number : Int) : List Nat :=
  if hasKey g.reverse_links segment_number then
    ((getList g.reverse_links segment_number).filter
      (fun x => lead_exclusively_to g x segment_number)).map Int.natAbs
  else []

/-- Embedding of get_exclusive_outputs. -/
def get_exclusive_outputs (g : AssemblyGraph) (segment_number : Int) : List Nat :=
  if hasKey g.forward_links segment_number then
    ((getList g.forward_links segment_number).filter
      (fun x => lead_exclusively_from g x segment_number)).map Int.natAbs
  else []

/-- Embedding of all_have_copy_depths. -/
def all_have_copy_depths (g : AssemblyGraph) (segment_numbers : List Nat) : Bool :=
  segment_numbers.all (fun num => hasKey g.copy_depths num)

/-- Embedding of get_segments_without_copies (iteration order is the
segment-map order). -/
def get_segments_without_copies (g : AssemblyGraph) : List Segment :=
  (g.segments.map Prod.snd).filter (fun x => ! hasKey g.copy_depths x.number)

/-- Embedding of get_segments_with_two_or_more_copies. -/
def get_segments_with_two_or_more_copies (g : AssemblyGraph) : List Segment :=
  (g.segments.map Prod.snd).filter
    (fun x => hasKey g.copy_depths x.number ∧
      ((g.copy_depths.lookup x.number).getD []).length > 1)

/-- Embedding of scale_copy_depths_from_source_segments: concatenate the
sources' copy depths (the callers guard that they are assigned) and scale
them to the segment's depth; a missing segment is a KeyError. -/
def scale_copy_depths_from_source_segments (g : AssemblyGraph) (segment_number : Nat)
    (source_segment_numbers : List Nat) : Option (List Rat × WithTop Rat) :=
  let source_depths := source_segment_numbers.flatMap
    (fun num => (g.copy_depths.lookup num).getD [])
  match g.segments.lookup segment_number with
  | none => none
  | some seg => scale_copy_depths seg.depth source_depths

/-- The comparison step of merge_copy_depths: keep the candidate with the
strictly lowest error (first candidate wins ties, matching the source's
strict comparison in iteration order). -/
def merge_consider (num : Nat) (pr : List Rat × WithTop Rat)
    (acc : WithTop Rat × Option (Nat × List Rat)) : WithTop Rat × Option (Nat × List Rat) :=
  if pr.2 < acc.1 then (pr.2, some (num, pr.1)) else acc

/-- One side (inputs or outputs) of a merge_copy_depths candidate. -/
def merge_eval_side (g : AssemblyGraph) (num : Nat) (side : List Nat)
    (acc : WithTop Rat × Option (Nat × List Rat)) :
    Option (WithTop Rat × Option (Nat × List Rat)) :=
  if side ≠ [] ∧ all_have_copy_depths g side then
    match scale_copy_depths_from_source_segments g num side with
    | none => none
    | some pr => some (merge_consider num pr acc)
  else some acc

/-- The candidate scan of merge_copy_depths over the segments lacking
copy depths, evaluating the exclusive-input side then the
exclusive-output side of each. -/
def merge_fold (g : AssemblyGraph) :
    List Segment → WithTop Rat × Option (Nat × List Rat) →
    Option (WithTop Rat × Option (Nat × List Rat))
  | [], acc => some acc
  | segment :: rest, acc =>
    match merge_eval_side g segment.number
        (get_exclusive_inputs g (segment.number : Int)) acc with
    | none => none
    | some acc1 =>
      match merge_eval_side g segment.number
          (get_exclusive_outputs g (segment.number : Int)) acc1 with
      | none => none
      | some acc2 => merge_fold g rest acc2

/-- Embedding of merge_copy_depths: evaluate every candidate, and when
the globally lowest error is below the margin assign the winning segment
(Python's truthiness test on best_segment_num also excludes a zero
number).  Returns the new graph and whether an assignment was made
(the source's 1/0). -/
def merge_copy_depths (error_margin : Rat) (g : AssemblyGraph) :
    Option (AssemblyGraph × Bool) :=
  let segments := get_segments_without_copies g
  if segments = [] then some (g, false)
  else
    match merge_fold g segments (⊤, none) with
    | none => none
    | some (lowest_error, best) =>
      match best with
      | some nb =>
        if nb.1 ≠ 0 ∧ lowest_error < ((error_margin : Rat) : WithTop Rat) then
          some ({ g with copy_depths := dictSet g.copy_depths nb.1 nb.2 }, true)
        else some (g, false)
      | none => some (g, false)

/-- Python's append of one item to the i-th bin (on fresh copies of the
bins, as the source's bins_copy does). -/
def appendAt : List (List Rat) → Nat → Rat → List (List Rat)
  | [], _, _ => []
  | b :: rest, 0, item => (b ++ [item]) :: rest
  | b :: rest, i + 1, item => b :: appendAt rest i item

/-- Embedding of shuffle_into_bins: all placements of the items into the
bins such that every bin is nonempty and every bin with a nonzero target
holds exactly that many items (Python's `not target` is also true for a
target of 0). -/
def shuffle_into_bins (items : List Rat) (bins : List (List Rat))
    (targets : List (Option Nat)) : List (List (List Rat)) :=
  match items with
  | item :: rest =>
      (List.range bins.length).flatMap
        (fun i => shuffle_into_bins rest (appendAt bins i item) targets)
  | [] =>
      if bins.all (fun x => ¬ x.isEmpty) ∧
         (targets.enum.all (fun p =>
            match p.2 with
            | none => true
            | some 0 => true
            | some t => t == ((bins.get? p.1).getD []).length)) then
        [bins]
      else []

/-- The max-error accumulation of
get_error_for_multiple_segments_and_depths; a missing segment is a
KeyError. -/
def gerr_fold (g : AssemblyGraph) : List (Nat × List Rat) → WithTop Rat → Option (WithTop Rat)
  | [], acc => some acc
  | (num, ds) :: rest, acc =>
    match g.segments.lookup num with
    | none => none
    | some seg => gerr_fold g rest (max acc (get_error ds.sum seg.depth))

/-- Embedding of get_error_for_multiple_segments_and_depths. -/
def get_error_for_multiple_segments_and_depths (g : AssemblyGraph)
    (segment_numbers : List Nat) (copy_depths : List (List Rat)) : Option (WithTop Rat) :=
  gerr_fold g (segment_numbers.zip copy_depths) ((0 : Rat) : WithTop Rat)

/-- The arrangement scan of redistribute_copy_depths: the first
arrangement with the strictly lowest maximum error. -/
def best_arrangement_fold (g : AssemblyGraph) (connections : List Nat) :
    List (List (List Rat)) → WithTop Rat → Option (List (List Rat)) →
    Option (WithTop Rat × Option (List (List Rat)))
  | [], lowest, best => some (lowest, best)
  | arr :: rest, lowest, best =>
    match get_error_for_multiple_segments_and_depths g connections arr with
    | none => none
    | some error =>
      if error < lowest then best_arrangement_fold g connections rest error (some arr)
      else best_arrangement_fold g connections rest lowest best

/-- The per-connection assignment loop of assign_copy_depths_where_needed:
skip already-assigned numbers, scale to the segment's depth, and assign
whenever the error is within the margin, tracking whether any assignment
happened. -/
def assign_fold (error_margin : Rat) :
    List (Nat × List Rat) → AssemblyGraph → Bool → Option (AssemblyGraph × Bool)
  | [], g, success => some (g, success)
  | (num, nd) :: rest, g, success =>
    if hasKey g.copy_depths num then assign_fold error_margin rest g success
    else
      match g.segments.lookup num with
      | none => none
      | some seg =>
        match scale_copy_depths seg.depth nd with
        | none => none
        | some pr =>
          if pr.2 ≤ ((error_margin : Rat) : WithTop Rat) then
            assign_fold error_margin rest
              { g with copy_depths := dictSet g.copy_depths num pr.1 } true
          else assign_fold error_margin rest g success

/-- Embedding of assign_copy_depths_where_needed. -/
def assign_copy_depths_where_needed (g : AssemblyGraph) (segment_numbers : List Nat)
    (new_depths : List (List Rat)) (error_margin : Rat) : Option (AssemblyGraph × Bool) :=
  assign_fold error_margin (segment_numbers.zip new_depths) g false

/-- The connection choice of redistribute_copy_depths: the exclusive
inputs unless they are absent or all assigned, in which case the
exclusive outputs. -/
def redistribute_connections (g : AssemblyGraph) (num : Nat) : List Nat :=
  let connections := get_exclusive_inputs g (num : Int)
  if connections = [] ∨ all_have_copy_depths g connections then
    get_exclusive_outputs g (num : Int)
  else connections

/-- The bin size targets of redistribute_copy_depths: None for an
unassigned connection, its copy count otherwise. -/
def redistribute_targets (g : AssemblyGraph) (connections : List Nat) : List (Option Nat) :=
  connections.map (fun x =>
    if hasKey g.copy_depths x then some ((g.copy_depths.lookup x).getD []).length
    else none)

/-- The candidate arrangements of redistribute_copy_depths for one
segment: its copy depths shuffled into one bin per connection. -/
def redistribute_arrangements (g : AssemblyGraph) (num : Nat) (connections : List Nat) :
    List (List (List Rat)) :=
  shuffle_into_bins ((g.copy_depths.lookup num).getD [])
    (List.replicate connections.length []) (redistribute_targets g connections)

/-- The per-segment loop of redistribute_copy_depths, over the snapshot
of segments with two or more copies, carrying the current graph. -/
def redistribute_scan (error_margin : Rat) :
    List Segment → AssemblyGraph → Option (AssemblyGraph × Bool)
  | [], g => some (g, false)
  | segment :: rest, g =>
    let num := segment.number
    let connections := redistribute_connections g num
    if connections = [] ∨ all_have_copy_depths g connections then
      redistribute_scan error_margin rest g
    else
      let arrangements := redistribute_arrangements g num connections
      if arrangements = [] then redistribute_scan error_margin rest g
      else
        match best_arrangement_fold g connections arrangements ⊤ none with
        | none => none
        | some (lowest_error, best) =>
          if lowest_error < ((error_margin : Rat) : WithTop Rat) then
            match best with
            | none => none
            | some arr =>
              match assign_copy_depths_where_needed g connections arr error_margin with
              | none => none
              | some (g2, success) =>
                if success then some (g2, true)
                else redistribute_scan error_margin rest g2
          else redistribute_scan error_margin rest g

/-- Embedding of redistribute_copy_depths. -/
def redistribute_copy_depths (error_margin : Rat) (g : AssemblyGraph) :
    Option (AssemblyGraph × Bool) :=
  let segments := get_segments_with_two_or_more_copies g
  if segments = [] then some (g, false)
  else redistribute_scan error_margin segments g

/-- The number of segments lacking copy-depth information, the measure of
progress of the propagation loop. -/
def unassigned_count (g : AssemblyGraph) : Nat :=
  (get_segments_without_copies g).length

/-- The source's invariant that each segment-map entry is keyed by its
segment's own number (maintained by every constructor and mutator). -/
def numbers_coherent (g : AssemblyGraph) : Bool :=
  g.segments.all (fun p => p.2.number == p.1)

/-- The inner while-loop of determine_copy_depth_part_2: run
merge_copy_depths until it reports no change.  Fuel exhaustion is `none`;
one more than the number of unassigned segments always suffices. -/
def merge_loop (error_margin : Rat) : Nat → AssemblyGraph → Option AssemblyGraph
  | 0, _ => none
  | fuel + 1, g =>
    match merge_copy_depths error_margin g with
    | none => none
    | some (g2, false) => some g2
    | some (g2, true) => merge_loop error_margin fuel g2

/-- Embedding of determine_copy_depth_part_2: exhaust merges, then
redistribute once, recursing while the redistribution reports a change.
The inner merge loop gets the fuel its progress measure guarantees
sufficient. -/
def determine_copy_depth_part_2 (error_margin : Rat) :
    Nat → AssemblyGraph → Option AssemblyGraph
  | 0, _ => none
  | fuel + 1, g =>
    match merge_loop error_margin (unassigned_count g + 1) g with
    | none => none
    | some g1 =>
      match redistribute_copy_depths error_margin g1 with
      | none => none
      | some (g2, false) => some g2
      | some (g2, true) => determine_copy_depth_part_2 error_margin fuel g2

/-- No existing copy-depth assignment is overwritten: every key already
assigned keeps its exact value. -/
def preserves_copy_depths (g g2 : AssemblyGraph) : Prop :=
  ∀ k, hasKey g.copy_depths k = true →
    g2.copy_depths.lookup k = g.copy_depths.lookup k

/-! Concrete graphs used as failing inputs, counterexamples and witnesses. -/

/-- The triangle of specification scenario 1: segments 1 and 2 (depth 10)
flow through the repeat 3 (depth 20); 1 and 2 are seeded single copy. -/
def g_triangle : AssemblyGraph :=
  { segments := [(1, mkSegment 1 10 ['A']), (2, mkSegment 2 10 ['C']),
                 (3, mkSegment 3 20 ['G'])],
    forward_links := [(1, [3]), (2, [3]), (3, [1, 2]),
                      (-3, [-1, -2]), (-1, [-3]), (-2, [-3])],
    reverse_links := [(3, [1, 2]), (1, [3]), (2, [3]),
                      (-1, [-3]), (-2, [-3]), (-3, [-1, -2])],
    copy_depths := [(1, [10]), (2, [10])], paths := [], overlap := 0 }

/-- The triangle after the merge rule assigns segment 3 the copies
[10, 10]. -/
def g_triangle_after : AssemblyGraph :=
  { g_triangle with copy_depths := [(1, [10]), (2, [10]), (3, [10, 10])] }

/-- A two-way split: segment 1 (depth 20, copies [10, 10]) leads
exclusively to the unassigned segments 2 and 3 (depth 10 each). -/
def g_split : AssemblyGraph :=
  { segments := [(1, mkSegment 1 20 ['A']), (2, mkSegment 2 10 ['C']),
                 (3, mkSegment 3 10 ['G'])],
    forward_links := [(1, [2, 3]), (-2, [-1]), (-3, [-1])],
    reverse_links := [(2, [1]), (3, [1]), (-1, [-2, -3])],
    copy_depths := [(1, [10, 10])], paths := [], overlap := 0 }

/-- The split graph after the redistribute rule assigns segments 2 and 3
one copy each. -/
def g_split_after : AssemblyGraph :=
  { g_split with copy_depths := [(1, [10, 10]), (2, [10]), (3, [10])] }

/-- Scenario 5 of the specification: chain 1 -> 2 -> 3 -> 4 with the
bypass link 1 -> 4 (all twins present), the start segment 1 having two
outgoing links. -/
def g_scen5 : AssemblyGraph :=
  { segments := [(1, mkSegment 1 10 ['T', 'T']), (2, mkSegment 2 4 ['A', 'A']),
                 (3, mkSegment 3 6 ['C', 'C']), (4, mkSegment 4 10 ['G', 'G'])],
    forward_links := [(1, [2, 4]), (2, [3]), (3, [4]),
                      (-2, [-1]), (-3, [-2]), (-4, [-3, -1])],
    reverse_links := [(2, [1]), (3, [2]), (4, [3, 1]),
                      (-1, [-2, -4]), (-2, [-3]), (-3, [-4])],
    copy_depths := [], paths := [], overlap := 0 }

/-- The bridge of scenario 5: start 1, end 4, interior [2, 3], depth 5,
quality 0.9. -/
def bridge_scen5 : Bridge :=
  { start_segment := 1, end_segment := 4, graph_path := [2, 3],
    bridge_sequence := ['A', 'C', 'G'], depth := 5, quality := 9 / 10 }

/-- A strand-symmetric palindromic junction with overlap 1: links
1 -> -1, 1 -> -2, 2 -> -1, 2 -> -2 and their twins (each link's twin is
again one of these four).  The W (weak, A/T) base is its own Watson-Crick
complement, so every overlap check of the junction repair succeeds. -/
def g_palindrome : AssemblyGraph :=
  { segments := [(1, mkSegment 1 2 ['C', 'W']), (2, mkSegment 2 3 ['T', 'W'])],
    forward_links := [(1, [-1, -2]), (2, [-1, -2])],
    reverse_links := [(-1, [1, 2]), (-2, [1, 2])],
    copy_depths := [], paths := [], overlap := 1 }

/-- The palindromic junction with a registered path [1, -1] crossing it
(initially consistent: the link 1 -> -1 exists and both ids are live). -/
def g_palindrome_path : AssemblyGraph :=
  { g_palindrome with paths := [("P", [1, -1])] }

/-- The 50 kb segment at depth 50 of the specification's diploid
example. -/
def seg_d1 : Segment := mkSegment 1 50 (List.replicate 50000 'A')

/-- The 500 kb segment at depth 100 of the specification's diploid
example. -/
def seg_d2 : Segment := mkSegment 2 100 (List.replicate 500000 'C')

/-- The specification's diploid-detection example: 50 kb of sequence at
depth 50 and 500 kb at depth 100 (links are irrelevant to the seeding
computation). -/
def g_diploid : AssemblyGraph :=
  { segments := [(1, seg_d1), (2, seg_d2)],
    forward_links := [], reverse_links := [],
    copy_depths := [], paths := [], overlap := 0 }

/-- A one-segment graph (4 bases at depth 4) for the C8 witness. -/
def g_w8 : AssemblyGraph :=
  { segments := [(1, mkSegment 1 4 ['A', 'C', 'G', 'T'])],
    forward_links := [], reverse_links := [],
    copy_depths := [], paths := [], overlap := 0 }

/-- A strand-symmetric graph with the single link 1 -> 2 (and its twin). -/
def g_link12 : AssemblyGraph :=
  { segments := [(1, mkSegment 1 1 ['A', 'C']), (2, mkSegment 2 1 ['C', 'G'])],
    forward_links := [(1, [2]), (-2, [-1])],
    reverse_links := [(2, [1]), (-1, [-2])],
    copy_depths := [], paths := [], overlap := 0 }

/-- A strand-symmetric chain 1 -> 2 -> 3 -> 4. -/
def g_chain14 : AssemblyGraph :=
  { segments := [(1, mkSegment 1 1 ['A']), (2, mkSegment 2 1 ['C']),
                 (3, mkSegment 3 1 ['G']), (4, mkSegment 4 1 ['T'])],
    forward_links := [(1, [2]), (2, [3]), (3, [4]), (-2, [-1]), (-3, [-2]), (-4, [-3])],
    reverse_links := [(2, [1]), (3, [2]), (4, [3]), (-1, [-2]), (-2, [-3]), (-3, [-4])],
    copy_depths := [], paths := [], overlap := 0 }

/-- A graph holding the single link 2 -> 1 and its twin -1 -> -2, for the
GFA emission witness. -/
def g_c10 : AssemblyGraph :=
  { segments := [(1, mkSegment 1 1 ['A']), (2, mkSegment 2 1 ['C'])],
    forward_links := [(2, [1]), (-1, [-2])],
    reverse_links := [(1, [2]), (-2, [-1])],
    copy_depths := [], paths := [], overlap := 0 }

/-- A graph with two segments and no links at all. -/
def g_nolinks : AssemblyGraph :=
  { segments := [(1, mkSegment 1 1 ['A']), (2, mkSegment 2 1 ['C'])],
    forward_links := [], reverse_links := [],
    copy_depths := [], paths := [], overlap := 0 }

/-! Association-list lemmas used throughout. -/

theorem lookup_dictSet_self {α β : Type} [BEq α] [LawfulBEq α]
    (m : List (α × β)) (k : α) (v : β) :
    (dictSet m k v).lookup k = some v := by
  induction m with
  | nil => simp [dictSet, List.lookup]
  | cons p rest ih =>
    by_cases h : p.1 = k
    · simp [dictSet, h, List.lookup]
    · have hbeq : (p.1 == k) = false := by simp [h]
      have hbeq2 : (k == p.1) = false := by
        simp only [beq_eq_false_iff_ne, ne_eq]
        exact fun hc => h hc.symm
      simp [dictSet, hbeq, List.lookup, ih, hbeq2]

theorem lookup_dictSet_ne {α β : Type} [BEq α] [LawfulBEq α]
    (m : List (α × β)) (k k2 : α) (v : β)
    (h : k2 ≠ k) : (dictSet m k v).lookup k2 = m.lookup k2 := by
  induction m with
  | nil =>
    have : (k2 == k) = false := by simp [h]
    simp [dictSet, List.lookup, this]
  | cons p rest ih =>
    by_cases hp : p.1 = k
    · have hbeq : (p.1 == k) = true := by simp [hp]
      have h2 : (k2 == k) = false := by simp [h]
      have h3 : (k2 == p.1) = false := by simp [hp, h]
      simp [dictSet, hbeq, List.lookup, h2, h3]
    · have hbeq : (p.1 == k) = false := by simp [hp]
      by_cases hq : k2 = p.1
      · simp [dictSet, hbeq, List.lookup, hq]
      · have h4 : (k2 == p.1) = false := by simp [hq]
        simp [dictSet, hbeq, List.lookup, h4, ih]

theorem getList_dictSet_self {α : Type} [BEq α] [LawfulBEq α]
    (m : List (α × List α)) (k : α) (v : List α) :
    getList (dictSet m k v) k = v := by
  simp [getList, lookup_dictSet_self]

theorem getList_dictSet_ne {α : Type} [BEq α] [LawfulBEq α]
    (m : List (α × List α)) (k k2 : α) (v : List α)
    (h : k2 ≠ k) : getList (dictSet m k v) k2 = getList m k2 := by
  simp [getList, lookup_dictSet_ne m k k2 v h]

theorem hasKey_dictSet_ne {α β : Type} [BEq α] [LawfulBEq α]
    (m : List (α × β)) (k k2 : α) (v : β)
    (h : k2 ≠ k) : hasKey (dictSet m k v) k2 = hasKey m k2 := by
  simp [hasKey, lookup_dictSet_ne m k k2 v h]

theorem hasKey_of_mem_getList {α : Type} [BEq α] [LawfulBEq α]
    (m : List (α × List α)) (k v : α)
    (h : v ∈ getList m k) : hasKey m k = true := by
  by_cases hk : (m.lookup k).isSome
  · simpa [hasKey] using hk
  · exfalso
    have : m.lookup k = none := by
      cases hlk : m.lookup k with
      | none => rfl
      | some l => rw [hlk] at hk; simp at hk
    rw [getList, this] at h
    simp at h

theorem listRemove_eq_none_iff {α : Type} [BEq α] [LawfulBEq α] (l : List α) (v : α) :
    listRemove l v = none ↔ v ∉ l := by
  induction l with
  | nil => simp [listRemove]
  | cons x rest ih =>
    by_cases h : x = v
    · have : (x == v) = true := by simp [h]
      simp [listRemove, this, h]
    · have hbeq : (x == v) = false := by simp [h]
      constructor
      · intro hr hmem
        rcases List.mem_cons.mp hmem with h1 | h2
        · exact h h1.symm
        · cases hres : listRemove rest v with
          | none => exact (ih.mp hres) h2
          | some l => simp [listRemove, hbeq, hres] at hr
      · intro hnm
        have hv : v ∉ rest := fun hc => hnm (List.mem_cons_of_mem _ hc)
        simp [listRemove, hbeq, ih.mpr hv]

theorem listRemove_eq_some_erase {α : Type} [BEq α] [LawfulBEq α]
    (l : List α) (v : α) (h : v ∈ l) :
    listRemove l v = some (l.erase v) := by
  induction l with
  | nil => simp at h
  | cons x rest ih =>
    by_cases hx : x = v
    · have hbeq : (x == v) = true := by simp [hx]
      simp [listRemove, hbeq, List.erase_cons]
    · have hbeq : (x == v) = false := by simp [hx]
      have hv : v ∈ rest := by
        rcases List.mem_cons.mp h with h1 | h2
        · exact absurd h1.symm hx
        · exact h2
      simp [listRemove, hbeq, ih hv, List.erase_cons]

theorem count_pair_map_eq (k b : Int) (l : List Int) :
    ((l.map (fun e => (k, e))).count (k, b)) = l.count b := by
  induction l with
  | nil => simp
  | cons x rest ih => simp [List.count_cons, ih]

theorem count_pair_map_ne (k a b : Int) (l : List Int) (h : a ≠ k) :
    ((l.map (fun e => (k, e))).count (a, b)) = 0 := by
  induction l with
  | nil => simp
  | cons x rest ih =>
    have hne : ((a, b) == (k, x)) = false := by
      simp only [beq_eq_false_iff_ne, ne_eq, Prod.mk.injEq, not_and]
      exact fun hc => absurd hc h
    simp only [List.map_cons, List.count_cons, hne, ih]
    simp
    exact fun hc => (h hc.symm).elim

theorem count_filter_decide (l : List Int) (p : Int → Bool) (b : Int) :
    (l.filter p).count b = if p b then l.count b else 0 := by
  induction l with
  | nil => simp
  | cons x rest ih =>
    by_cases hx : x = b
    · subst hx
      by_cases hp : p x
      · simp [List.filter_cons, hp, List.count_cons, ih]
      · simp [List.filter_cons, hp, List.count_cons, ih]
    · have hbx : (b == x) = false := by simp [Ne.symm hx]
      by_cases hp : p x
      · simp [List.filter_cons, hp, List.count_cons, ih, hbx, hx]
      · simp [List.filter_cons, hp, List.count_cons, ih, hbx, hx]

theorem lookup_eq_none_of_notin_keys {α β : Type} [BEq α] [LawfulBEq α]
    (m : List (α × β)) (k : α)
    (h : k ∉ m.map Prod.fst) : m.lookup k = none := by
  induction m with
  | nil => rfl
  | cons q rest ih =>
    simp only [List.map_cons, List.mem_cons, not_or] at h
    have hbeq : (k == q.1) = false := by simp [h.1]
    simp [List.lookup, hbeq, ih h.2]

theorem gfa_pairs_count_aux (m : List (Int × List Int)) (a b : Int)
    (hnd : (m.map Prod.fst).Nodup) :
    ((m.flatMap (fun p => (p.2.filter (fun e => is_link_positive p.1 e)).map
        (fun e => (p.1, e)))).count (a, b))
      = if is_link_positive a b then ((m.lookup a).getD []).count b else 0 := by
  induction m with
  | nil => simp [List.lookup]
  | cons p rest ih =>
    have hnd2 : (rest.map Prod.fst).Nodup := (List.nodup_cons.mp hnd).2
    have hnotin : p.1 ∉ rest.map Prod.fst := (List.nodup_cons.mp hnd).1
    simp only [List.flatMap_cons, List.count_append]
    by_cases hk : p.1 = a
    · subst hk
      have htail :
          ((rest.flatMap (fun q => (q.2.filter (fun e => is_link_positive q.1 e)).map
              (fun e => (q.1, e)))).count (p.1, b)) = 0 := by
        rw [ih hnd2, lookup_eq_none_of_notin_keys rest p.1 hnotin]
        simp
      have hlk : (p :: rest).lookup p.1 = some p.2 := by
        simp [List.lookup]
      rw [htail, count_pair_map_eq, count_filter_decide, hlk]
      simp
    · have hhead :
          (((p.2.filter (fun e => is_link_positive p.1 e)).map
              (fun e => (p.1, e))).count (a, b)) = 0 :=
        count_pair_map_ne p.1 a b _ (Ne.symm hk)
      have hlk : (p :: rest).lookup a = rest.lookup a := by
        have hbeq : (a == p.1) = false := by simp [Ne.symm hk]
        simp [List.lookup, hbeq]
      rw [hhead, ih hnd2, hlk]
      simp

theorem ilp_characterization (a b : Int) :
    is_link_positive a b = true ↔
      (¬(a < 0 ∧ b < 0) ∧ ((0 < a ∧ 0 < b) ∨ a = -b ∨ |a| > |b|)) := by
  unfold is_link_positive
  split_ifs with h1 h2 h3
  · exact ⟨fun _ => ⟨by omega, Or.inl h1⟩, fun _ => rfl⟩
  · exact ⟨fun hc => by simp at hc, fun hr => absurd h2 hr.1⟩
  · exact ⟨fun _ => ⟨h2, Or.inr (Or.inl h3)⟩, fun _ => rfl⟩
  · simp only [decide_eq_true_eq]
    constructor
    · intro habs
      exact ⟨h2, Or.inr (Or.inr habs)⟩
    · rintro ⟨hn, hpos | heq | habs⟩
      · exact absurd hpos h1
      · exact absurd heq h3
      · exact habs

theorem ilp_pair_xor (a b : Int) (_ha : a ≠ 0) (_hb : b ≠ 0) (hba : b ≠ -a) :
    is_link_positive (-b) (-a) = !(is_link_positive a b) := by
  cases hab : is_link_positive a b with
  | true =>
    have h := (ilp_characterization a b).mp hab
    simp only [Bool.not_true]
    cases hcd : is_link_positive (-b) (-a) with
    | false => rfl
    | true =>
      exfalso
      have h2 := (ilp_characterization (-b) (-a)).mp hcd
      obtain ⟨hn1, hd1⟩ := h
      obtain ⟨hn2, hd2⟩ := h2
      simp only [gt_iff_lt, Int.abs_eq_natAbs] at hd1 hd2
      rcases hd1 with h11 | h12 | h13 <;> rcases hd2 with h21 | h22 | h23 <;> omega
  | false =>
    have h : ¬(¬(a < 0 ∧ b < 0) ∧ ((0 < a ∧ 0 < b) ∨ a = -b ∨ |a| > |b|)) := by
      intro hc
      have := (ilp_characterization a b).mpr hc
      rw [hab] at this
      exact Bool.false_ne_true this
    simp only [Bool.not_false]
    apply (ilp_characterization (-b) (-a)).mpr
    by_cases hneg : a < 0 ∧ b < 0
    · exact ⟨by omega, Or.inl (by omega)⟩
    · have hno : ¬(0 < a ∧ 0 < b) := fun hc => h ⟨hneg, Or.inl hc⟩
      have hne : a ≠ -b := fun hc => h ⟨hneg, Or.inr (Or.inl hc)⟩
      have hle : ¬(|a| > |b|) := fun hc => h ⟨hneg, Or.inr (Or.inr hc)⟩
      refine ⟨by omega, Or.inr (Or.inr ?_)⟩
      simp only [gt_iff_lt, Int.abs_eq_natAbs] at hle ⊢
      omega

theorem ilp_self_twin (a : Int) : is_link_positive a (-a) = true := by
  unfold is_link_positive
  split_ifs with h1 h2 h3
  · rfl
  · exfalso; omega
  · rfl
  · exfalso; omega

/-- C10: is_link_positive returns true exactly when both signs are
positive, or the link is its own reverse complement (a = -b), or |a| > |b|,
with the both-negative case always skipped; for a link whose twin is a
distinct link exactly one of the pair is positive, so the GFA link lines
emit exactly one representative of each reverse-complement pair, and a
self-twin link is emitted once. -/
theorem claim_C10_positive_link_rule (a b : Int) (g : AssemblyGraph)
    (ha : a ≠ 0) (hb : b ≠ 0) :
    (is_link_positive a b = true ↔
      (¬(a < 0 ∧ b < 0) ∧ ((0 < a ∧ 0 < b) ∨ a = -b ∨ |a| > |b|))) ∧
    (b ≠ -a → is_link_positive (-b) (-a) = !(is_link_positive a b)) ∧
    (is_link_positive a (-a) = true) ∧
    ((g.forward_links.map Prod.fst).Nodup → b ≠ -a →
      (getList g.forward_links a).count b = 1 →
      (getList g.forward_links (-b)).count (-a) = 1 →
      (gfa_link_pairs g).count (a, b) + (gfa_link_pairs g).count (-b, -a) = 1) := by
  refine ⟨ilp_characterization a b, fun hba => ilp_pair_xor a b ha hb hba,
    ilp_self_twin a, fun hnd hba h1 h2 => ?_⟩
  have c1 := gfa_pairs_count_aux g.forward_links a b hnd
  have c2 := gfa_pairs_count_aux g.forward_links (-b) (-a) hnd
  have hgl1 : ((g.forward_links.lookup a).getD []) = getList g.forward_links a := rfl
  have hgl2 : ((g.forward_links.lookup (-b)).getD []) = getList g.forward_links (-b) := rfl
  rw [hgl1, h1] at c1
  rw [hgl2, h2] at c2
  have hflat : gfa_link_pairs g
      = g.forward_links.flatMap (fun p => (p.2.filter (fun e => is_link_positive p.1 e)).map
          (fun e => (p.1, e))) := rfl
  rw [hflat, c1, c2, ilp_pair_xor a b ha hb hba]
  cases hilp : is_link_positive a b <;> simp

/-- Witness for C10 at the concrete link 2 -> 1 (twin -1 -> -2): the pair
is emitted exactly once and a hairpin link 2 -> -2 is positive. -/
theorem claim_C10_witness :
    (gfa_link_pairs g_c10).count (2, 1) + (gfa_link_pairs g_c10).count (-1, -2) = 1 ∧
    is_link_positive 2 (-2) = true := by
  constructor
  · exact (claim_C10_positive_link_rule 2 1 g_c10 (by decide) (by decide)).2.2.2
      (by decide) (by decide) (by decide) (by decide)
  · exact (claim_C10_positive_link_rule 2 1 g_c10 (by decide) (by decide)).2.2.1

/-- C5: the source's dead_end_change_if_path_deleted diverges from its
specified behaviour.  On the single-link graph with path [1, 2] the code
returns 0 while the specified value is -2 (the two existing dead ends at
the path's ends are never subtracted, because the source compares a list
with the integer 0); on the chain graph with path [1, 2, 3] the code
returns 1 while the specified value is 0 (the code reads the path's end
from index 1 instead of the last index). -/
theorem claim_C5_code_divergence :
    dead_end_change_if_path_deleted g_link12 [1, 2] = some 0 ∧
    dead_end_change_if_path_deleted_spec g_link12 [1, 2] = some (-2) ∧
    dead_end_change_if_path_deleted g_chain14 [1, 2, 3] = some 1 ∧
    dead_end_change_if_path_deleted_spec g_chain14 [1, 2, 3] = some 0 := by
  with_unfolding_all decide

/-- C6 counterexample: on a graph holding only the link 1 -> 2,
remove_link(1, 3) is not a no-op: the key 1 is present without the value
3, so Python list.remove raises ValueError (`none` in the embedding). -/
theorem claim_C6_counterexample : remove_link g_link12 1 3 = none := by
  with_unfolding_all decide

/-- C6 amended: remove_link removes the first occurrence of a -> b and of
its twin from each of the four adjacency entries whose key is present; it
is a no-op when none of the four keys is present; but when a key is
present and the element to remove is absent from its list, the call
raises ValueError instead of being a no-op. -/
theorem claim_C6_remove_link (g : AssemblyGraph) (a b : Int) :
    ((hasKey g.forward_links a = false ∧ hasKey g.forward_links (-b) = false ∧
      hasKey g.reverse_links b = false ∧ hasKey g.reverse_links (-a) = false) →
      remove_link g a b = some g) ∧
    ((hasKey g.forward_links a = true ∧ b ∉ getList g.forward_links a) →
      remove_link g a b = none) ∧
    ((b ∈ getList g.forward_links a ∧ (-a) ∈ getList g.forward_links (-b) ∧
      a ∈ getList g.reverse_links b ∧ (-b) ∈ getList g.reverse_links (-a) ∧ b ≠ -a) →
      ((remove_link g a b).map (fun g2 => g2.forward_links.lookup a)
          = some (some ((getList g.forward_links a).erase b)) ∧
       (remove_link g a b).map (fun g2 => g2.forward_links.lookup (-b))
          = some (some ((getList g.forward_links (-b)).erase (-a))) ∧
       (remove_link g a b).map (fun g2 => g2.reverse_links.lookup b)
          = some (some ((getList g.reverse_links b).erase a)) ∧
       (remove_link g a b).map (fun g2 => g2.reverse_links.lookup (-a))
          = some (some ((getList g.reverse_links (-a)).erase (-b))) ∧
       (remove_link g a b).map (fun g2 => g2.segments) = some g.segments ∧
       (remove_link g a b).map (fun g2 => g2.paths) = some g.paths ∧
       (remove_link g a b).map (fun g2 => g2.copy_depths) = some g.copy_depths)) := by
  refine ⟨?_, ?_, ?_⟩
  · rintro ⟨h1, h2, h3, h4⟩
    simp [remove_link, removeFromEntry, h1, h2, h3, h4]
  · rintro ⟨h1, h2⟩
    simp [remove_link, removeFromEntry, h1, (listRemove_eq_none_iff _ _).mpr h2]
  · rintro ⟨hb, hta, hrb, hrna, hne⟩
    have hKa := hasKey_of_mem_getList _ _ _ hb
    have hKnb := hasKey_of_mem_getList _ _ _ hta
    have hKb := hasKey_of_mem_getList _ _ _ hrb
    have hKna := hasKey_of_mem_getList _ _ _ hrna
    have hne1 : (-b) ≠ a := by omega
    have hne2 : a ≠ -b := by omega
    have hne3 : (-a) ≠ b := by omega
    have hne4 : b ≠ -a := hne
    have e1 : removeFromEntry g.forward_links a b
        = some (dictSet g.forward_links a ((getList g.forward_links a).erase b)) := by
      simp [removeFromEntry, hKa, listRemove_eq_some_erase _ _ hb]
    have hK1 : hasKey (dictSet g.forward_links a ((getList g.forward_links a).erase b)) (-b)
        = hasKey g.forward_links (-b) := hasKey_dictSet_ne _ _ _ _ hne1
    have hgl1 : getList (dictSet g.forward_links a ((getList g.forward_links a).erase b)) (-b)
        = getList g.forward_links (-b) := getList_dictSet_ne _ _ _ _ hne1
    have e2 : removeFromEntry
          (dictSet g.forward_links a ((getList g.forward_links a).erase b)) (-b) (-a)
        = some (dictSet (dictSet g.forward_links a ((getList g.forward_links a).erase b)) (-b)
            ((getList g.forward_links (-b)).erase (-a))) := by
      rw [removeFromEntry, hK1, hgl1]
      simp [hKnb, listRemove_eq_some_erase _ _ hta]
    have e3 : removeFromEntry g.reverse_links b a
        = some (dictSet g.reverse_links b ((getList g.reverse_links b).erase a)) := by
      simp [removeFromEntry, hKb, listRemove_eq_some_erase _ _ hrb]
    have hK2 : hasKey (dictSet g.reverse_links b ((getList g.reverse_links b).erase a)) (-a)
        = hasKey g.reverse_links (-a) := hasKey_dictSet_ne _ _ _ _ hne3
    have hgl2 : getList (dictSet g.reverse_links b ((getList g.reverse_links b).erase a)) (-a)
        = getList g.reverse_links (-a) := getList_dictSet_ne _ _ _ _ hne3
    have e4 : removeFromEntry
          (dictSet g.reverse_links b ((getList g.reverse_links b).erase a)) (-a) (-b)
        = some (dictSet (dictSet g.reverse_links b ((getList g.reverse_links b).erase a)) (-a)
            ((getList g.reverse_links (-a)).erase (-b))) := by
      rw [removeFromEntry, hK2, hgl2]
      simp [hKna, listRemove_eq_some_erase _ _ hrna]
    have p1 : (dictSet (dictSet g.forward_links a ((getList g.forward_links a).erase b)) (-b)
          ((getList g.forward_links (-b)).erase (-a))).lookup a
        = some ((getList g.forward_links a).erase b) := by
      rw [lookup_dictSet_ne _ _ _ _ hne2, lookup_dictSet_self]
    have p2 : (dictSet (dictSet g.forward_links a ((getList g.forward_links a).erase b)) (-b)
          ((getList g.forward_links (-b)).erase (-a))).lookup (-b)
        = some ((getList g.forward_links (-b)).erase (-a)) := lookup_dictSet_self _ _ _
    have p3 : (dictSet (dictSet g.reverse_links b ((getList g.reverse_links b).erase a)) (-a)
          ((getList g.reverse_links (-a)).erase (-b))).lookup b
        = some ((getList g.reverse_links b).erase a) := by
      rw [lookup_dictSet_ne _ _ _ _ hne4, lookup_dictSet_self]
    have p4 : (dictSet (dictSet g.reverse_links b ((getList g.reverse_links b).erase a)) (-a)
          ((getList g.reverse_links (-a)).erase (-b))).lookup (-a)
        = some ((getList g.reverse_links (-a)).erase (-b)) := lookup_dictSet_self _ _ _
    refine ⟨?_, ?_, ?_, ?_, ?_, ?_, ?_⟩ <;>
      simp only [remove_link, e1, e2, e3, e4] <;> simp [p1, p2, p3, p4]

/-- Witness for C6 at concrete inputs: on the linkless graph the call is
a no-op, and on the single-link graph removing the present link 1 -> 2
clears all four adjacency entries. -/
theorem claim_C6_witness :
    remove_link g_nolinks 5 6 = some g_nolinks ∧
    (remove_link g_link12 1 2).map (fun g2 => g2.forward_links.lookup 1) = some (some []) ∧
    (remove_link g_link12 1 2).map (fun g2 => g2.forward_links.lookup (-2)) = some (some []) ∧
    (remove_link g_link12 1 2).map (fun g2 => g2.paths) = some g_link12.paths := by
  have h := (claim_C6_remove_link g_link12 1 2).2.2 (by decide)
  refine ⟨(claim_C6_remove_link g_nolinks 5 6).1 (by decide), ?_, ?_, h.2.2.2.2.2.1⟩
  · exact h.1.trans (by decide)
  · exact h.2.1.trans (by decide)

/-- C1: on scenario 5's graph, where the start segment 1 has the two
outgoing links 1 -> 2 and 1 -> 4, apply_bridge leaves the pre-existing
link 1 -> 4 in place (forward_links[1] ends as [4, 5], not [5], and
reverse_links[4] as [1, 5], not [5]): the deletion loops iterate the very
lists remove_link shortens, so every second entry is skipped.  The new
segment 5 does carry the bridge's sequence, depth and provenance, and the
bridge depth is subtracted from the interior segments 2 and 3. -/
theorem claim_C1_apply_bridge_leftover :
    (apply_bridge g_scen5 bridge_scen5 1 4 bridge_scen5.bridge_sequence [2, 3]).map
        (fun g2 => (getList g2.forward_links 1, getList g2.reverse_links 4))
      = some ([4, 5], [1, 5]) ∧
    (apply_bridge g_scen5 bridge_scen5 1 4 bridge_scen5.bridge_sequence [2, 3]).map
        (fun g2 => (g2.segments.lookup 5).map
          (fun s => (s.depth, s.forward_sequence, s.bridge)))
      = some (some (5, ['A', 'C', 'G'], some bridge_scen5)) ∧
    (apply_bridge g_scen5 bridge_scen5 1 4 bridge_scen5.bridge_sequence [2, 3]).map
        (fun g2 => ((g2.segments.lookup 2).map Segment.depth,
                    (g2.segments.lookup 3).map Segment.depth))
      = some (some 0, some 1) := by
  with_unfolding_all decide

/-- C3: the path-consistency invariant fails after the listed public
mutator repair_multi_way_junctions runs to completion.  On the
palindromic junction graph with the registered crossing path [1, -1]
(consistent beforehand), the repair finds the junction (starting {1, 2},
ending {-1, -2}), rewires it through the new segment 3, and correctly
patches the crossing path to [1, 3, -1]; but because each ending segment
is the negation of a starting one, the later per-ending dict assignment
overwrites forward_links[1] with [-3], deleting the link 1 -> 3 the
patched path now needs.  The repair then finds no further junction and
terminates, leaving the registry with the path [1, 3, -1] whose pair
(1, 3) has no forward link; every referenced id stays live, so it is
exactly the link half of the invariant that breaks. -/
theorem claim_C3_repair_breaks_paths :
    paths_consistent g_palindrome_path = true ∧
    (repair_multi_way_junctions 3 g_palindrome_path).map
        (fun g2 => (paths_consistent g2, g2.paths, getList g2.forward_links 1,
                    path_ids_live g2 [1, 3, -1]))
      = some (false, [("P", [1, 3, -1])], [-3], true) := by
  with_unfolding_all decide

/-- C2: a completed public mutation can break strand symmetry.  On the
palindromic junction graph the invariant holds; repair_multi_way_junctions
finds the junction (starting {1, 2}, ending {-1, -2}), rewires it through
the new segment 3, and terminates with no junction left, but because some
ending segment is the negation of a starting segment the later per-ending
dict assignments overwrite the per-starting ones: the result has
reverse_links[3] = [1, 2] while forward_links[1] = [-3], so the link
1 -> 3 exists in the mirror but not in forward_links, and the twin of
-3 -> -1 is missing; the strand-symmetry invariant is false after the
mutation. -/
theorem claim_C2_repair_breaks_symmetry :
    links_invariant g_palindrome = true ∧
    (repair_multi_way_junctions 3 g_palindrome).map
        (fun g2 => (links_invariant g2, getList g2.forward_links 1,
                    getList g2.reverse_links 3))
      = some (false, [-3], [1, 2]) := by
  with_unfolding_all decide

/-- C4 counterexample: scale_copy_depths called with source depths
summing to zero raises ZeroDivisionError instead of completing without
failing (the claim says the error is treated as infinite and the
operation completes). -/
theorem claim_C4_counterexample : scale_copy_depths 5 [0] = none := by
  with_unfolding_all decide

/-- C4 amended: a zero source-depth sum makes scale_copy_depths raise
ZeroDivisionError, because the scaling factor is computed by division
before any guard; the infinite-error treatment with no assignment applies
instead to a non-positive target depth, where get_error returns infinity,
which is never below any error margin, so no copy-depth assignment is
made in that case. -/
theorem claim_C4_zero_sum (t : Rat) (s : List Rat) :
    (s.sum = 0 → scale_copy_depths t s = none) ∧
    (t ≤ 0 → get_error s.sum t = ⊤ ∧
      ∀ margin : Rat, ¬(get_error s.sum t < (margin : WithTop Rat))) := by
  constructor
  · intro h
    simp [scale_copy_depths, h]
  · intro ht
    have he : get_error s.sum t = ⊤ := by
      simp [get_error, not_lt.mpr ht]
    exact ⟨he, fun margin => by rw [he]; exact not_top_lt⟩

/-- Witness for C4: the zero-sum crash at a concrete call and the
infinite error at a concrete non-positive target. -/
theorem claim_C4_witness :
    scale_copy_depths 5 [0, 0] = none ∧
    get_error (List.sum [(0 : Rat)]) (-1) = ⊤ := by
  refine ⟨(claim_C4_zero_sum 5 [0, 0]).1 ?_, ((claim_C4_zero_sum (-1) [0]).2 ?_).1⟩
  · with_unfolding_all decide
  · norm_num

/-- C8 amended general rule: on a graph with at least one base, the
single-copy depth is half the median exactly when the base count near
half the median strictly exceeds the base count near double the median
and is at least 10 percent of the total bases, and the median otherwise
(the source compares the fractions; over a positive total this is the
claim's base-count comparison). -/
theorem claim_C8_single_copy_depth (g : AssemblyGraph) (h : get_total_length g ≠ 0) :
    determine_single_copy_depth g =
      some (if get_base_count_in_depth_range g (get_median_read_depth g * (2/5))
                (get_median_read_depth g * (3/5))
              > get_base_count_in_depth_range g (get_median_read_depth g * (8/5))
                (get_median_read_depth g * (12/5))
            ∧ 10 * get_base_count_in_depth_range g (get_median_read_depth g * (2/5))
                (get_median_read_depth g * (3/5)) ≥ get_total_length g
            then get_median_read_depth g / 2 else get_median_read_depth g) := by
  have hT : (0 : Rat) < (get_total_length g : Rat) := by
    exact_mod_cast Nat.pos_of_ne_zero h
  have h1 : ((get_base_count_in_depth_range g (get_median_read_depth g * (2/5))
        (get_median_read_depth g * (3/5)) : Rat) / (get_total_length g : Rat)
      > (get_base_count_in_depth_range g (get_median_read_depth g * (8/5))
        (get_median_read_depth g * (12/5)) : Rat) / (get_total_length g : Rat))
      ↔ (get_base_count_in_depth_range g (get_median_read_depth g * (2/5))
          (get_median_read_depth g * (3/5))
        > get_base_count_in_depth_range g (get_median_read_depth g * (8/5))
          (get_median_read_depth g * (12/5))) := by
    rw [gt_iff_lt, gt_iff_lt, div_lt_div_iff_of_pos_right hT]
    exact Nat.cast_lt
  have h2 : ((get_base_count_in_depth_range g (get_median_read_depth g * (2/5))
        (get_median_read_depth g * (3/5)) : Rat) / (get_total_length g : Rat) ≥ 1/10)
      ↔ (10 * get_base_count_in_depth_range g (get_median_read_depth g * (2/5))
          (get_median_read_depth g * (3/5)) ≥ get_total_length g) := by
    rw [ge_iff_le, div_le_div_iff₀ (by norm_num) hT, one_mul, ge_iff_le, mul_comm]
    constructor
    · intro hh
      exact_mod_cast hh
    · intro hh
      exact_mod_cast hh
  simp only [determine_single_copy_depth]
  rw [if_neg h, apply_ite some]
  exact if_congr (and_congr h1 h2) rfl rfl

/-- C8 counterexample: on the specification's own example graph (50 kb at
depth 50, 500 kb at depth 100) the half-median fraction is 50/550, which
is below the 10 percent threshold, so the single-copy depth is set to the
median 100, not to 50 as the claim states. -/
theorem claim_C8_counterexample :
    determine_single_copy_depth g_diploid = some 100 ∧
    determine_single_copy_depth g_diploid ≠ some 50 := by
  have hd1 : seg_d1.depth = 50 := rfl
  have hd2 : seg_d2.depth = 100 := rfl
  have hl1 : seg_d1.get_length = 50000 := List.length_replicate _ _
  have hl2 : seg_d2.get_length = 500000 := List.length_replicate _ _
  have hno1 : seg_d1.get_length_no_overlap 0 = 50000 := by
    show ((List.replicate 50000 'A').length : Int) - ((0 : Nat) : Int) = 50000
    rw [List.length_replicate]
    norm_num
  have hno2 : seg_d2.get_length_no_overlap 0 = 500000 := by
    show ((List.replicate 500000 'C').length : Int) - ((0 : Nat) : Int) = 500000
    rw [List.length_replicate]
    norm_num
  have hmap : g_diploid.segments.map Prod.snd = [seg_d1, seg_d2] := rfl
  have hov : g_diploid.overlap = 0 := rfl
  have hsort : pySortByDepth [seg_d1, seg_d2] = [seg_d1, seg_d2] := by
    simp only [pySortByDepth, List.foldr, insertByDepth, hd1, hd2]
    norm_num
  have hmed : get_median_read_depth g_diploid = 100 := by
    simp only [get_median_read_depth, hmap, hov, hsort]
    rw [show List.map (fun s => Segment.get_length_no_overlap s 0) [seg_d1, seg_d2]
        = [(50000 : Int), 500000] by simp [hno1, hno2]]
    rw [show List.sum ([50000, 500000] : List Int) = 550000 by norm_num]
    rw [show Int.fdiv 550000 2 = 275000 by decide]
    norm_num [median_loop, hno1, hno2, hd1, hd2]
  have hbnh : get_base_count_in_depth_range g_diploid 40 60 = 50000 := by
    simp only [get_base_count_in_depth_range, hmap]
    rw [show List.filter (fun s => decide ((40 : Rat) ≤ s.depth ∧ s.depth ≤ 60))
        [seg_d1, seg_d2] = [seg_d1] by
      simp only [List.filter_cons, List.filter_nil, hd1, hd2]
      norm_num]
    simp [hl1]
  have hbnd : get_base_count_in_depth_range g_diploid 160 240 = 0 := by
    simp only [get_base_count_in_depth_range, hmap]
    rw [show List.filter (fun s => decide ((160 : Rat) ≤ s.depth ∧ s.depth ≤ 240))
        [seg_d1, seg_d2] = [] by
      simp only [List.filter_cons, List.filter_nil, hd1, hd2]
      norm_num]
    simp
  have htot : get_total_length g_diploid = 550000 := by
    simp only [get_total_length, hmap]
    simp [hl1, hl2]
  have hmain : determine_single_copy_depth g_diploid = some 100 := by
    simp only [determine_single_copy_depth, hmed]
    rw [show ((100 : Rat) * (2/5)) = 40 by norm_num,
        show ((100 : Rat) * (3/5)) = 60 by norm_num,
        show ((100 : Rat) * (8/5)) = 160 by norm_num,
        show ((100 : Rat) * (12/5)) = 240 by norm_num,
        hbnh, hbnd, htot]
    norm_num
  exact ⟨hmain, by rw [hmain]; intro hc; exact absurd (Option.some.inj hc) (by norm_num)⟩

/-- Witness for C8: on a one-segment graph of 4 bases at depth 4 the rule
yields the median itself. -/
theorem claim_C8_witness : determine_single_copy_depth g_w8 = some 4 := by
  refine (claim_C8_single_copy_depth g_w8 ?_).trans ?_
  · decide
  · with_unfolding_all decide

theorem split_path_go_mem (seg : Int) (p : List Int) (q : List Int)
    (hq : q ∈ split_path_go seg p) : seg ∉ q ∧ ∀ x ∈ q, x ∈ p := by
  induction p generalizing q with
  | nil =>
    simp only [split_path_go, List.mem_singleton] at hq
    subst hq
    simp
  | cons x rest ih =>
    by_cases hx : x = seg
    · simp only [split_path_go, if_pos hx] at hq
      rcases List.mem_cons.mp hq with h1 | h2
      · subst h1
        simp
      · obtain ⟨ha, hb⟩ := ih _ h2
        exact ⟨ha, fun y hy => List.mem_cons_of_mem _ (hb y hy)⟩
    · simp only [split_path_go, if_neg hx] at hq
      cases hgo : split_path_go seg rest with
      | nil =>
        rw [hgo] at hq
        simp only [List.mem_singleton] at hq
        subst hq
        constructor
        · simp only [List.mem_singleton]
          exact fun hc => hx hc.symm
        · intro y hy
          simp only [List.mem_singleton] at hy
          subst hy
          exact List.mem_cons_self _ _
      | cons part parts =>
        rw [hgo] at hq
        rcases List.mem_cons.mp hq with h1 | h2
        · subst h1
          have hp : part ∈ split_path_go seg rest := by
            rw [hgo]
            exact List.mem_cons_self _ _
          obtain ⟨ha, hb⟩ := ih _ hp
          constructor
          · intro hc
            rcases List.mem_cons.mp hc with hc1 | hc2
            · exact hx hc1.symm
            · exact ha hc2
          · intro y hy
            rcases List.mem_cons.mp hy with hy1 | hy2
            · subst hy1
              exact List.mem_cons_self _ _
            · exact List.mem_cons_of_mem _ (hb y hy2)
        · have hp : q ∈ split_path_go seg rest := by
            rw [hgo]
            exact List.mem_cons_of_mem _ h2
          obtain ⟨ha, hb⟩ := ih _ hp
          exact ⟨ha, fun y hy => List.mem_cons_of_mem _ (hb y hy)⟩

theorem split_path_mem (p : List Int) (seg : Int) (q : List Int)
    (hq : q ∈ split_path p seg) : 2 ≤ q.length ∧ seg ∉ q ∧ ∀ x ∈ q, x ∈ p := by
  rw [split_path, List.mem_filter] at hq
  obtain ⟨h1, h2⟩ := split_path_go_mem seg p q hq.1
  have hlen : 1 < q.length := by
    have := hq.2
    simpa using this
  exact ⟨hlen, h1, h2⟩

theorem split_path_multiple_fold_mem (segs : List Int) (parts : List (List Int))
    (q : List Int)
    (hq : q ∈ segs.foldl (fun pp s => pp.flatMap (fun part => split_path part s)) parts) :
    (∃ p0 ∈ parts, ∀ x ∈ q, x ∈ p0) ∧ (segs ≠ [] → 2 ≤ q.length) ∧
    (∀ s ∈ segs, s ∉ q) := by
  induction segs generalizing parts with
  | nil =>
    simp only [List.foldl_nil] at hq
    exact ⟨⟨q, hq, fun x hx => hx⟩, by simp, by simp⟩
  | cons s rest ih =>
    rw [List.foldl_cons] at hq
    obtain ⟨⟨p0, hp0mem, hsub⟩, hlen, hnot⟩ :=
      ih (parts.flatMap (fun part => split_path part s)) hq
    obtain ⟨p1, hp1, hp0⟩ := List.mem_flatMap.mp hp0mem
    obtain ⟨hl2, hsnot, hsub2⟩ := split_path_mem p1 s p0 hp0
    refine ⟨⟨p1, hp1, fun x hx => hsub2 x (hsub x hx)⟩, ?_, ?_⟩
    · intro _
      rcases rest with _ | ⟨r, rs⟩
      · simp only [List.foldl_nil] at hq
        obtain ⟨p2, _, hq2⟩ := List.mem_flatMap.mp hq
        exact (split_path_mem p2 s q hq2).1
      · exact hlen (by simp)
    · intro t ht
      rcases List.mem_cons.mp ht with h1 | h2
      · subst h1
        intro hc
        exact hsnot (hsub t hc)
      · exact hnot t h2

/-- C7 counterexample: after merging the chain [1, 2] into the new id 3,
the registry {Q: [5, 6, 1], R: [1, 2]} becomes {Q: [5, 6]}: the single
kept fragment of Q keeps the name Q (it is not renamed Q_1 as the claim
states), and R, which is exactly the merged chain, is replaced by [3] and
then dropped by the length filter rather than kept as the new id. -/
theorem claim_C7_counterexample :
    merge_simple_path_paths [("Q", [5, 6, 1]), ("R", [1, 2])] [1, 2] 3
      = [("Q", [5, 6])] := by
  with_unfolding_all decide

/-- C7 amended: after merge_simple_path(P), occurrences of P and of its
reverse complement as contiguous subsequences are replaced by the new id
and its negation (a path without an occurrence is left unchanged by the
replacement step); every path is then split on the ids of P and -P; each
kept fragment has length at least 2 and references no id of P or -P (so
no occurrence of the merged chain survives); a path whose fragments all
have length below 2 is dropped (in particular a path equal to P becomes
the one-element path [new] and is dropped); when two or more fragments
are kept they are renamed name_1, name_2, ...; a single kept fragment
keeps the original name unchanged. -/
theorem claim_C7_merge_path_rewrite (paths : List (String × List Int))
    (merge_path : List Int) (new_seg_num : Int) (hnp : merge_path ≠ []) :
    (∀ entry ∈ merge_simple_path_paths paths merge_path new_seg_num,
        2 ≤ entry.2.length ∧
        ∀ x ∈ entry.2, x ∉ merge_path ∧ x ∉ (merge_path.reverse).map (fun y => -y)) ∧
    (∀ entry ∈ merge_simple_path_paths paths merge_path new_seg_num,
        ∃ q ∈ paths,
          (split_path_multiple
              (find_replace_in_list
                (find_replace_in_list q.2 merge_path [new_seg_num])
                ((merge_path.reverse).map (fun y => -y)) [-new_seg_num])
              (merge_path ++ (merge_path.reverse).map (fun y => -y))
            = [entry.2] ∧ entry.1 = q.1) ∨
          (2 ≤ (split_path_multiple
              (find_replace_in_list
                (find_replace_in_list q.2 merge_path [new_seg_num])
                ((merge_path.reverse).map (fun y => -y)) [-new_seg_num])
              (merge_path ++ (merge_path.reverse).map (fun y => -y))).length ∧
            ∃ i, (split_path_multiple
              (find_replace_in_list
                (find_replace_in_list q.2 merge_path [new_seg_num])
                ((merge_path.reverse).map (fun y => -y)) [-new_seg_num])
              (merge_path ++ (merge_path.reverse).map (fun y => -y))).get? i
                = some entry.2 ∧
              entry.1 = q.1 ++ "_" ++ toString (i + 1))) ∧
    (∀ p pat : List Int, ∀ n : Int, find_pattern_index pat p = none →
        find_replace_in_list p pat [n] = p) := by
  refine ⟨?_, ?_, ?_⟩
  · intro entry hentry
    simp only [merge_simple_path_paths, List.mem_flatMap] at hentry
    obtain ⟨q2, hq2, hbranch⟩ := hentry
    have hmem : entry.2 ∈ split_path_multiple q2.2
        (merge_path ++ (merge_path.reverse).map (fun x => -x)) := by
      by_cases hone : (split_path_multiple q2.2
          (merge_path ++ (merge_path.reverse).map (fun x => -x))).length = 1
      · rw [if_pos hone] at hbranch
        simp only [List.mem_singleton] at hbranch
        obtain ⟨a, ha⟩ := List.length_eq_one.mp hone
        rw [hbranch, ha]
        simp [ha]
      · rw [if_neg hone] at hbranch
        by_cases hmore : (split_path_multiple q2.2
            (merge_path ++ (merge_path.reverse).map (fun x => -x))).length > 1
        · rw [if_pos hmore] at hbranch
          obtain ⟨pr, hpr, heq⟩ := List.mem_map.mp hbranch
          have : pr.2 ∈ (split_path_multiple q2.2
              (merge_path ++ (merge_path.reverse).map (fun x => -x))) := by
            have h2 := List.mem_enum_iff_get?.mp hpr
            exact List.get?_mem h2
          rw [← heq]
          exact this
        · rw [if_neg hmore] at hbranch
          simp at hbranch
      ----
    have hfold := split_path_multiple_fold_mem
      (merge_path ++ (merge_path.reverse).map (fun x => -x)) [q2.2] entry.2 hmem
    obtain ⟨_, hlen, hnot⟩ := hfold
    refine ⟨hlen (by simp [hnp]), fun x hx => ⟨?_, ?_⟩⟩
    · intro hc
      exact hnot x (List.mem_append_left _ hc) hx
    · intro hc
      exact hnot x (List.mem_append_right _ hc) hx
  · intro entry hentry
    simp only [merge_simple_path_paths, List.mem_flatMap] at hentry
    obtain ⟨q2, hq2, hbranch⟩ := hentry
    obtain ⟨q, hq, hq2eq⟩ := List.mem_map.mp hq2
    refine ⟨q, hq, ?_⟩
    rw [← hq2eq] at hbranch
    by_cases hone : (split_path_multiple
        (find_replace_in_list
          (find_replace_in_list q.2 merge_path [new_seg_num])
          ((merge_path.reverse).map (fun y => -y)) [-new_seg_num])
        (merge_path ++ (merge_path.reverse).map (fun y => -y))).length = 1
    · left
      rw [if_pos hone] at hbranch
      simp only [List.mem_singleton] at hbranch
      obtain ⟨a, ha⟩ := List.length_eq_one.mp hone
      rw [hbranch, ha]
      simp [ha]
    · right
      rw [if_neg hone] at hbranch
      by_cases hmore : (split_path_multiple
          (find_replace_in_list
            (find_replace_in_list q.2 merge_path [new_seg_num])
            ((merge_path.reverse).map (fun y => -y)) [-new_seg_num])
          (merge_path ++ (merge_path.reverse).map (fun y => -y))).length > 1
      · rw [if_pos hmore] at hbranch
        obtain ⟨pr, hpr, heq⟩ := List.mem_map.mp hbranch
        refine ⟨hmore, pr.1, ?_, ?_⟩
        · have h2 := List.mem_enum_iff_get?.mp hpr
          rw [← heq]
          exact h2
        · rw [← heq]
      · rw [if_neg hmore] at hbranch
        simp at hbranch
  · intro p pat n h
    simp [find_replace_in_list, find_replace_go, h]

theorem hasKey_dictSet_iff {α β : Type} [BEq α] [LawfulBEq α]
    (m : List (α × β)) (k k2 : α) (v : β) :
    hasKey (dictSet m k v) k2 = true ↔ (k2 = k ∨ hasKey m k2 = true) := by
  by_cases h : k2 = k
  · subst h
    simp [hasKey, lookup_dictSet_self]
  · rw [hasKey_dictSet_ne m k k2 v h]
    simp [h]

theorem lookup_mem {α β : Type} [BEq α] [LawfulBEq α] (m : List (α × β)) (k : α) (v : β)
    (h : m.lookup k = some v) : (k, v) ∈ m := by
  induction m with
  | nil => simp [List.lookup] at h
  | cons p rest ih =>
    by_cases hp : k = p.1
    · have hbeq : (k == p.1) = true := by simp [hp]
      simp only [List.lookup, hbeq] at h
      have hv : p.2 = v := by
        cases h
        rfl
      have : (k, v) = p := by
        rw [hp, ← hv]
      rw [this]
      exact List.mem_cons_self _ _
    · have hbeq : (k == p.1) = false := by simp [hp]
      simp only [List.lookup, hbeq] at h
      exact List.mem_cons_of_mem _ (ih h)

theorem length_filter_le_of_imp {α : Type} (l : List α) (p q : α → Bool)
    (himp : ∀ x ∈ l, p x = true → q x = true) :
    (l.filter p).length ≤ (l.filter q).length := by
  induction l with
  | nil => simp
  | cons x rest ih =>
    have ih2 := ih (fun y hy => himp y (List.mem_cons_of_mem _ hy))
    by_cases hp : p x = true
    · have hq := himp x (List.mem_cons_self _ _) hp
      simp only [List.filter_cons, hp, hq, if_true, List.length_cons]
      omega
    · have hp2 : p x = false := by
        revert hp
        cases p x <;> simp
      by_cases hq : q x = true
      · have e1 : (List.filter p (x :: rest)).length = (List.filter p rest).length := by
          simp [List.filter_cons, hp2]
        have e2 : (List.filter q (x :: rest)).length = (List.filter q rest).length + 1 := by
          simp [List.filter_cons, hq]
        omega
      · have hq2 : q x = false := by
          revert hq
          cases q x <;> simp
        simp only [List.filter_cons, hp2, hq2, Bool.false_eq_true, if_false]
        omega

theorem length_filter_lt_of_flip {α : Type} (l : List α) (p q : α → Bool)
    (himp : ∀ x ∈ l, p x = true → q x = true) (a : α) (ha : a ∈ l)
    (hqa : q a = true) (hpa : p a = false) :
    (l.filter p).length < (l.filter q).length := by
  induction l with
  | nil => simp at ha
  | cons x rest ih =>
    have himp2 : ∀ y ∈ rest, p y = true → q y = true :=
      fun y hy => himp y (List.mem_cons_of_mem _ hy)
    have hle := length_filter_le_of_imp rest p q himp2
    rcases List.mem_cons.mp ha with h1 | h2
    · subst h1
      have e1 : (List.filter p (a :: rest)).length = (List.filter p rest).length := by
        simp [List.filter_cons, hpa]
      have e2 : (List.filter q (a :: rest)).length = (List.filter q rest).length + 1 := by
        simp [List.filter_cons, hqa]
      omega
    · have hlt := ih himp2 h2
      by_cases hp : p x = true
      · have hq := himp x (List.mem_cons_self _ _) hp
        have e1 : (List.filter p (x :: rest)).length = (List.filter p rest).length + 1 := by
          simp [List.filter_cons, hp]
        have e2 : (List.filter q (x :: rest)).length = (List.filter q rest).length + 1 := by
          simp [List.filter_cons, hq]
        omega
      · have hp2 : p x = false := by
          revert hp
          cases p x <;> simp
        have e1 : (List.filter p (x :: rest)).length = (List.filter p rest).length := by
          simp [List.filter_cons, hp2]
        by_cases hq : q x = true
        · have e2 : (List.filter q (x :: rest)).length = (List.filter q rest).length + 1 := by
            simp [List.filter_cons, hq]
          omega
        · have hq2 : q x = false := by
            revert hq
            cases q x <;> simp
          have e2 : (List.filter q (x :: rest)).length = (List.filter q rest).length := by
            simp [List.filter_cons, hq2]
          omega

theorem merge_eval_side_best (g : AssemblyGraph) (num : Nat) (side : List Nat)
    (acc acc2 : WithTop Rat × Option (Nat × List Rat))
    (h : merge_eval_side g num side acc = some acc2) :
    acc2.2 = acc.2 ∨ ∃ ds, acc2.2 = some (num, ds) := by
  unfold merge_eval_side at h
  split_ifs at h with hc
  · cases hs : scale_copy_depths_from_source_segments g num side with
    | none =>
      rw [hs] at h
      simp at h
    | some pr =>
      rw [hs] at h
      have hacc : merge_consider num pr acc = acc2 := by
        cases h
        rfl
      unfold merge_consider at hacc
      split_ifs at hacc with hlt
      · right
        exact ⟨pr.1, by rw [← hacc]⟩
      · left
        rw [← hacc]
  · have hacc : acc = acc2 := by
      cases h
      rfl
    left
    rw [← hacc]

theorem merge_fold_best (g : AssemblyGraph) (segs : List Segment)
    (acc acc2 : WithTop Rat × Option (Nat × List Rat))
    (h : merge_fold g segs acc = some acc2) :
    acc2.2 = acc.2 ∨ ∃ s ∈ segs, ∃ ds, acc2.2 = some (s.number, ds) := by
  induction segs generalizing acc with
  | nil =>
    simp only [merge_fold] at h
    left
    cases h
    rfl
  | cons s rest ih =>
    unfold merge_fold at h
    cases h1 : merge_eval_side g s.number (get_exclusive_inputs g (s.number : Int)) acc with
    | none =>
      simp only [h1] at h
      exact Option.noConfusion h
    | some acc1 =>
      simp only [h1] at h
      cases h2 : merge_eval_side g s.number (get_exclusive_outputs g (s.number : Int)) acc1 with
      | none =>
        simp only [h2] at h
        exact Option.noConfusion h
      | some acc1b =>
        simp only [h2] at h
        rcases ih acc1b h with hA | hB
        · rcases merge_eval_side_best _ _ _ _ _ h2 with hC | ⟨ds, hC⟩
          · rcases merge_eval_side_best _ _ _ _ _ h1 with hD | ⟨ds, hD⟩
            · left
              rw [hA, hC, hD]
            · right
              exact ⟨s, List.mem_cons_self _ _, ds, by rw [hA, hC, hD]⟩
          · right
            exact ⟨s, List.mem_cons_self _ _, ds, by rw [hA, hC]⟩
        · obtain ⟨s2, hs2, ds, hds⟩ := hB
          right
          exact ⟨s2, List.mem_cons_of_mem _ hs2, ds, hds⟩

theorem merge_copy_depths_unchanged (margin : Rat) (g g2 : AssemblyGraph)
    (h : merge_copy_depths margin g = some (g2, false)) : g2 = g := by
  simp only [merge_copy_depths] at h
  split_ifs at h with hseg
  · cases h
    rfl
  · cases hf : merge_fold g (get_segments_without_copies g) (⊤, none) with
    | none =>
      simp only [hf] at h
      exact Option.noConfusion h
    | some lb =>
      obtain ⟨le, best⟩ := lb
      cases best with
      | none =>
        simp only [hf] at h
        cases h
        rfl
      | some nb =>
        simp only [hf] at h
        split_ifs at h with hcond
        · simp at h
        · cases h
          rfl

theorem merge_copy_depths_changed (margin : Rat) (g g2 : AssemblyGraph)
    (h : merge_copy_depths margin g = some (g2, true)) :
    unassigned_count g2 < unassigned_count g ∧ g2.segments = g.segments ∧
    preserves_copy_depths g g2 := by
  simp only [merge_copy_depths] at h
  split_ifs at h with hseg
  · simp at h
  · cases hf : merge_fold g (get_segments_without_copies g) (⊤, none) with
    | none =>
      simp only [hf] at h
      exact Option.noConfusion h
    | some lb =>
      obtain ⟨le, best⟩ := lb
      cases best with
      | none =>
        simp only [hf] at h
        simp at h
      | some nb =>
        simp only [hf] at h
        split_ifs at h with hcond
        · have hg2 : g2 = { g with copy_depths := dictSet g.copy_depths nb.1 nb.2 } := by
            cases h
            rfl
          rcases merge_fold_best g _ _ _ hf with hA | hB
          · simp at hA
          · obtain ⟨s, hs, ds, hds⟩ := hB
            simp only [Option.some.injEq] at hds
            have hnum : nb.1 = s.number := by rw [hds]
            have hsmem := List.mem_filter.mp hs
            have hnok : hasKey g.copy_depths s.number = false := by
              have := hsmem.2
              simp at this
              simpa using this
            refine ⟨?_, by rw [hg2], ?_⟩
            · rw [hg2]
              unfold unassigned_count get_segments_without_copies
              refine length_filter_lt_of_flip (g.segments.map Prod.snd)
                (fun x => ! hasKey (dictSet g.copy_depths nb.1 nb.2) x.number)
                (fun x => ! hasKey g.copy_depths x.number) ?_ s hsmem.1 ?_ ?_
              · intro x _ hx
                cases hb : hasKey g.copy_depths x.number with
                | false =>
                  show (! hasKey g.copy_depths x.number) = true
                  rw [hb]
                  rfl
                | true =>
                  have hd : hasKey (dictSet g.copy_depths nb.1 nb.2) x.number = true :=
                    (hasKey_dictSet_iff _ _ _ _).mpr (Or.inr hb)
                  have hx2 : (! hasKey (dictSet g.copy_depths nb.1 nb.2) x.number) = true := hx
                  rw [hd] at hx2
                  exact Bool.noConfusion hx2
              · simp [hnok]
              · have hds2 : hasKey (dictSet g.copy_depths nb.1 nb.2) s.number = true := by
                  rw [hasKey_dictSet_iff]
                  left
                  rw [hnum]
                simp [hds2]
            · intro k hk
              rw [hg2]
              show (dictSet g.copy_depths nb.1 nb.2).lookup k = g.copy_depths.lookup k
              have hkne : k ≠ nb.1 := by
                intro hc
                rw [hc, hnum] at hk
                rw [hnok] at hk
                exact absurd hk (by simp)
              exact lookup_dictSet_ne _ _ _ _ hkne
        · simp at h

theorem hasKey_preserved (g g2 : AssemblyGraph) (hp : preserves_copy_depths g g2)
    (k : Nat) (hk : hasKey g.copy_depths k = true) : hasKey g2.copy_depths k = true := by
  unfold hasKey at hk ⊢
  rw [hp k hk]
  exact hk

theorem preserves_copy_depths_refl (g : AssemblyGraph) : preserves_copy_depths g g :=
  fun _ _ => rfl

theorem preserves_copy_depths_trans (g g1 g2 : AssemblyGraph)
    (h1 : preserves_copy_depths g g1) (h2 : preserves_copy_depths g1 g2) :
    preserves_copy_depths g g2 := by
  intro k hk
  rw [h2 k (hasKey_preserved g g1 h1 k hk)]
  exact h1 k hk

theorem unassigned_count_le (g g2 : AssemblyGraph) (hs : g2.segments = g.segments)
    (hkeys : ∀ k, hasKey g.copy_depths k = true → hasKey g2.copy_depths k = true) :
    unassigned_count g2 ≤ unassigned_count g := by
  unfold unassigned_count get_segments_without_copies
  rw [hs]
  refine length_filter_le_of_imp (g.segments.map Prod.snd)
    (fun x => ! hasKey g2.copy_depths x.number)
    (fun x => ! hasKey g.copy_depths x.number) ?_
  intro x _ hx
  cases hb : hasKey g.copy_depths x.number with
  | false =>
    show (! hasKey g.copy_depths x.number) = true
    rw [hb]
    rfl
  | true =>
    have hd := hkeys x.number hb
    have hx2 : (! hasKey g2.copy_depths x.number) = true := hx
    rw [hd] at hx2
    exact Bool.noConfusion hx2

theorem unassigned_count_lt (g g2 : AssemblyGraph) (hs : g2.segments = g.segments)
    (hkeys : ∀ k, hasKey g.copy_depths k = true → hasKey g2.copy_depths k = true)
    (num : Nat) (seg : Segment) (hmem : (num, seg) ∈ g.segments)
    (hnum : seg.number = num) (hnok : hasKey g.copy_depths num = false)
    (hyes : hasKey g2.copy_depths num = true) :
    unassigned_count g2 < unassigned_count g := by
  unfold unassigned_count get_segments_without_copies
  rw [hs]
  refine length_filter_lt_of_flip (g.segments.map Prod.snd)
    (fun x => ! hasKey g2.copy_depths x.number)
    (fun x => ! hasKey g.copy_depths x.number) ?_ seg
    (List.mem_map.mpr ⟨(num, seg), hmem, rfl⟩) ?_ ?_
  · intro x _ hx
    cases hb : hasKey g.copy_depths x.number with
    | false =>
      show (! hasKey g.copy_depths x.number) = true
      rw [hb]
      rfl
    | true =>
      have hd := hkeys x.number hb
      have hx2 : (! hasKey g2.copy_depths x.number) = true := hx
      rw [hd] at hx2
      exact Bool.noConfusion hx2
  · show (! hasKey g.copy_depths seg.number) = true
    rw [hnum, hnok]
    rfl
  · show (! hasKey g2.copy_depths seg.number) = false
    rw [hnum, hyes]
    rfl

theorem numbers_coherent_of_segments_eq (g g2 : AssemblyGraph)
    (hs : g2.segments = g.segments) (h : numbers_coherent g = true) :
    numbers_coherent g2 = true := by
  unfold numbers_coherent at h ⊢
  rw [hs]
  exact h

theorem assign_fold_spec (margin : Rat) (lst : List (Nat × List Rat))
    (g2 : AssemblyGraph) (s2 : Bool) :
    ∀ (g : AssemblyGraph) (success : Bool),
    assign_fold margin lst g success = some (g2, s2) →
    g2.segments = g.segments ∧ preserves_copy_depths g g2 ∧
    (s2 = false → g2 = g ∧ success = false) ∧
    (numbers_coherent g = true → success = false → s2 = true →
      unassigned_count g2 < unassigned_count g) := by
  induction lst with
  | nil =>
    intro g success h
    simp only [assign_fold, Option.some.injEq, Prod.mk.injEq] at h
    obtain ⟨hg, hsucc⟩ := h
    subst hg
    subst hsucc
    exact ⟨rfl, preserves_copy_depths_refl g, fun hs => ⟨rfl, hs⟩,
      fun _ hf ht => absurd (hf ▸ ht) (by simp)⟩
  | cons p rest ih =>
    intro g success h
    obtain ⟨num, nd⟩ := p
    simp only [assign_fold] at h
    split_ifs at h with hk
    · exact ih g success h
    · have hkf : hasKey g.copy_depths num = false := by
        revert hk
        cases hasKey g.copy_depths num <;> simp
      cases hl : g.segments.lookup num with
      | none =>
        simp only [hl] at h
        exact Option.noConfusion h
      | some seg =>
        simp only [hl] at h
        cases hscale : scale_copy_depths seg.depth nd with
        | none =>
          simp only [hscale] at h
          exact Option.noConfusion h
        | some pr =>
          simp only [hscale] at h
          split_ifs at h with herr
          · obtain ⟨ih1, ih2, ih3, _⟩ :=
              ih { g with copy_depths := dictSet g.copy_depths num pr.1 } true h
            have hsuper : ∀ k, hasKey g.copy_depths k = true →
                hasKey (dictSet g.copy_depths num pr.1) k = true :=
              fun k hkk => (hasKey_dictSet_iff _ _ _ _).mpr (Or.inr hkk)
            have hpres : preserves_copy_depths g g2 := by
              intro k hkk
              have hkne : k ≠ num := by
                intro hc
                rw [hc, hkf] at hkk
                exact Bool.noConfusion hkk
              rw [ih2 k (hsuper k hkk)]
              exact lookup_dictSet_ne _ _ _ _ hkne
            have hs2t : s2 = true := by
              cases hst : s2 with
              | true => rfl
              | false => exact absurd (ih3 hst).2 (by simp)
            refine ⟨ih1, hpres, fun hs => absurd (hs ▸ hs2t) (by simp), ?_⟩
            intro hcoh _ _
            have hle2 : unassigned_count g2 ≤
                unassigned_count { g with copy_depths := dictSet g.copy_depths num pr.1 } :=
              unassigned_count_le _ _ ih1
                (fun k hkk => hasKey_preserved _ _ ih2 k hkk)
            have hmem : (num, seg) ∈ g.segments := lookup_mem _ _ _ hl
            have hnum : seg.number = num := by
              have := List.all_eq_true.mp hcoh (num, seg) hmem
              exact beq_iff_eq.mp this
            have hlt : unassigned_count { g with copy_depths := dictSet g.copy_depths num pr.1 } <
                unassigned_count g :=
              unassigned_count_lt g _ rfl hsuper num seg hmem hnum hkf
                ((hasKey_dictSet_iff _ _ _ _).mpr (Or.inl rfl))
            exact lt_of_le_of_lt hle2 hlt
          · exact ih g success h

theorem redistribute_scan_spec (margin : Rat) (segs : List Segment)
    (g2 : AssemblyGraph) (s2 : Bool) :
    ∀ g : AssemblyGraph,
    redistribute_scan margin segs g = some (g2, s2) →
    g2.segments = g.segments ∧ preserves_copy_depths g g2 ∧
    (s2 = false → g2 = g) ∧
    (numbers_coherent g = true → s2 = true →
      unassigned_count g2 < unassigned_count g) := by
  induction segs with
  | nil =>
    intro g h
    simp only [redistribute_scan, Option.some.injEq, Prod.mk.injEq] at h
    obtain ⟨hg, hs⟩ := h
    subst hg
    exact ⟨rfl, preserves_copy_depths_refl g, fun _ => rfl,
      fun _ ht => absurd (hs ▸ ht) (by simp)⟩
  | cons segment rest ih =>
    intro g h
    simp only [redistribute_scan] at h
    split_ifs at h with hc1 hc2
    · exact ih g h
    · exact ih g h
    · cases hb : best_arrangement_fold g (redistribute_connections g segment.number)
          (redistribute_arrangements g segment.number
            (redistribute_connections g segment.number)) ⊤ none with
      | none =>
        simp only [hb] at h
        exact Option.noConfusion h
      | some lb =>
        obtain ⟨le, best⟩ := lb
        cases best with
        | none =>
          simp only [hb] at h
          split_ifs at h with hlt
          exact ih g h
        | some arr =>
          simp only [hb] at h
          split_ifs at h with hlt
          · cases ha : assign_copy_depths_where_needed g
                (redistribute_connections g segment.number) arr margin with
            | none =>
              simp only [ha] at h
              exact Option.noConfusion h
            | some pr =>
              obtain ⟨ga, succ⟩ := pr
              simp only [ha] at h
              have ha2 : assign_fold margin
                  ((redistribute_connections g segment.number).zip arr) g false =
                  some (ga, succ) := ha
              obtain ⟨a1, a2, a3, a4⟩ := assign_fold_spec margin _ ga succ g false ha2
              split_ifs at h with hsucc
              · simp only [Option.some.injEq, Prod.mk.injEq] at h
                obtain ⟨hg2, hs2⟩ := h
                subst hg2
                refine ⟨a1, a2, fun hs => absurd (hs ▸ hs2.symm) (by simp), ?_⟩
                intro hcoh _
                exact a4 hcoh rfl hsucc
              · have hsf : succ = false := by
                  revert hsucc
                  cases succ <;> simp
                have hgag : ga = g := (a3 hsf).1
                rw [hgag] at h
                exact ih g h
          · exact ih g h

theorem redistribute_copy_depths_spec (margin : Rat) (g g2 : AssemblyGraph) (s2 : Bool)
    (h : redistribute_copy_depths margin g = some (g2, s2)) :
    g2.segments = g.segments ∧ preserves_copy_depths g g2 ∧
    (s2 = false → g2 = g) ∧
    (numbers_coherent g = true → s2 = true →
      unassigned_count g2 < unassigned_count g) := by
  simp only [redistribute_copy_depths] at h
  split_ifs at h with hseg
  · simp only [Option.some.injEq, Prod.mk.injEq] at h
    obtain ⟨hg, hs⟩ := h
    subst hg
    exact ⟨rfl, preserves_copy_depths_refl g, fun _ => rfl,
      fun _ ht => absurd (hs ▸ ht) (by simp)⟩
  · exact redistribute_scan_spec margin _ g2 s2 g h

theorem merge_loop_le (margin : Rat) (fuel : Nat) (g1 : AssemblyGraph) :
    ∀ g : AssemblyGraph, merge_loop margin fuel g = some g1 →
    g1.segments = g.segments ∧ preserves_copy_depths g g1 ∧
    unassigned_count g1 ≤ unassigned_count g := by
  induction fuel with
  | zero =>
    intro g h
    exact Option.noConfusion h
  | succ fuel ih =>
    intro g h
    simp only [merge_loop] at h
    cases hm : merge_copy_depths margin g with
    | none =>
      simp only [hm] at h
      exact Option.noConfusion h
    | some pr =>
      obtain ⟨gm, changed⟩ := pr
      cases changed with
      | false =>
        simp only [hm] at h
        have hgm : gm = g := merge_copy_depths_unchanged margin g gm hm
        simp only [Option.some.injEq] at h
        rw [← h, hgm]
        exact ⟨rfl, preserves_copy_depths_refl g, le_refl _⟩
      | true =>
        simp only [hm] at h
        obtain ⟨c1, c2, c3⟩ := merge_copy_depths_changed margin g gm hm
        obtain ⟨i1, i2, i3⟩ := ih gm h
        exact ⟨i1.trans c2, preserves_copy_depths_trans g gm g1 c3 i2,
          le_of_lt (lt_of_le_of_lt i3 c1)⟩

theorem merge_loop_stable (margin : Rat) :
    ∀ (n m : Nat) (g : AssemblyGraph), unassigned_count g < n → unassigned_count g < m →
    merge_loop margin n g = merge_loop margin m g := by
  intro n
  induction n with
  | zero =>
    intro m g hn _
    exact absurd hn (Nat.not_lt_zero _)
  | succ n ih =>
    intro m g hn hm
    cases m with
    | zero => exact absurd hm (Nat.not_lt_zero _)
    | succ m =>
      simp only [merge_loop]
      cases hmc : merge_copy_depths margin g with
      | none => rfl
      | some pr =>
        obtain ⟨gm, changed⟩ := pr
        cases changed with
        | false => rfl
        | true =>
          obtain ⟨c1, _, _⟩ := merge_copy_depths_changed margin g gm hmc
          exact ih m gm (by omega) (by omega)

theorem part2_stable (margin : Rat) :
    ∀ (n m : Nat) (g : AssemblyGraph), numbers_coherent g = true →
    unassigned_count g < n → unassigned_count g < m →
    determine_copy_depth_part_2 margin n g = determine_copy_depth_part_2 margin m g := by
  intro n
  induction n with
  | zero =>
    intro m g _ hn _
    exact absurd hn (Nat.not_lt_zero _)
  | succ n ih =>
    intro m g hcoh hn hm
    cases m with
    | zero => exact absurd hm (Nat.not_lt_zero _)
    | succ m =>
      simp only [determine_copy_depth_part_2]
      cases hml : merge_loop margin (unassigned_count g + 1) g with
      | none => rfl
      | some g1 =>
        cases hr : redistribute_copy_depths margin g1 with
        | none => simp only [hr]
        | some pr =>
          obtain ⟨g2, changed⟩ := pr
          cases changed with
          | false => simp only [hr]
          | true =>
            obtain ⟨m1, _, m3⟩ := merge_loop_le margin _ g1 g hml
            have hcoh1 : numbers_coherent g1 = true :=
              numbers_coherent_of_segments_eq g g1 m1 hcoh
            obtain ⟨r1, _, _, r4⟩ := redistribute_copy_depths_spec margin g1 g2 true hr
            have hlt : unassigned_count g2 < unassigned_count g1 := r4 hcoh1 rfl
            have hcoh2 : numbers_coherent g2 = true :=
              numbers_coherent_of_segments_eq g1 g2 r1 hcoh1
            simp only [hr]
            exact ih m g2 hcoh2 (by omega) (by omega)

/-- Witness for C7 at the specification's scenario 4: merging
P = [1, 2, 3, 4] into the new id 8 rewrites the registry
{P: [1, 2, 3, 4, 7], Q: [2, 9]} to {P: [8, 7]}; the kept path [8, 7] has
length 2 and no id of the merged chain. -/
theorem claim_C7_witness :
    2 ≤ ([8, 7] : List Int).length ∧
    ∀ x ∈ ([8, 7] : List Int), x ∉ ([1, 2, 3, 4] : List Int) ∧
      x ∉ (([1, 2, 3, 4] : List Int).reverse).map (fun y => -y) := by
  exact (claim_C7_merge_path_rewrite [("P", [1, 2, 3, 4, 7]), ("Q", [2, 9])]
    [1, 2, 3, 4] 8 (by decide)).1 ("P", [8, 7]) (by with_unfolding_all decide)

/-- C9: each propagation round is monotonic, and the outer loop
terminates.  A merge round reporting no change leaves the graph exactly
as it was; a merge round reporting a change keeps the segment map,
overwrites no existing copy-depth assignment and strictly decreases the
number of unassigned segments.  The same holds for a redistribute round
(its strict decrease uses the source's invariant that each segment-map
entry is keyed by its segment's number).  Consequently the inner merge
loop and determine_copy_depth_part_2 are fuel-stable: any fuel beyond
the unassigned-segment count gives the same result, which is the
embedded form of termination on every finite graph. -/
theorem claim_C9_propagation_monotonic (margin : Rat) (g g2 : AssemblyGraph) :
    (merge_copy_depths margin g = some (g2, false) → g2 = g) ∧
    (merge_copy_depths margin g = some (g2, true) →
      g2.segments = g.segments ∧ preserves_copy_depths g g2 ∧
      unassigned_count g2 < unassigned_count g) ∧
    (redistribute_copy_depths margin g = some (g2, false) → g2 = g) ∧
    (numbers_coherent g = true → redistribute_copy_depths margin g = some (g2, true) →
      g2.segments = g.segments ∧ preserves_copy_depths g g2 ∧
      unassigned_count g2 < unassigned_count g) ∧
    (∀ n m, unassigned_count g < n → unassigned_count g < m →
      merge_loop margin n g = merge_loop margin m g) ∧
    (numbers_coherent g = true → ∀ n m, unassigned_count g < n → unassigned_count g < m →
      determine_copy_depth_part_2 margin n g = determine_copy_depth_part_2 margin m g) := by
  refine ⟨fun h => merge_copy_depths_unchanged margin g g2 h, ?_, ?_, ?_,
    fun n m hn hm => merge_loop_stable margin n m g hn hm,
    fun hcoh n m hn hm => part2_stable margin n m g hcoh hn hm⟩
  · intro h
    obtain ⟨c1, c2, c3⟩ := merge_copy_depths_changed margin g g2 h
    exact ⟨c2, c3, c1⟩
  · intro h
    exact (redistribute_copy_depths_spec margin g g2 false h).2.2.1 rfl
  · intro hcoh h
    obtain ⟨r1, r2, _, r4⟩ := redistribute_copy_depths_spec margin g g2 true h
    exact ⟨r1, r2, r4 hcoh rfl⟩

/-- Witness for C9 at the two concrete propagation scenarios: the merge
round on the triangle graph and the redistribute round on the split
graph each strictly decrease the number of unassigned segments, and
both loops give the same result under any sufficient fuel. -/
theorem claim_C9_witness :
    unassigned_count g_triangle_after < unassigned_count g_triangle ∧
    unassigned_count g_split_after < unassigned_count g_split ∧
    merge_loop (1/5) 2 g_triangle = merge_loop (1/5) 5 g_triangle ∧
    determine_copy_depth_part_2 (1/5) 3 g_split =
      determine_copy_depth_part_2 (1/5) 7 g_split :=
  ⟨((claim_C9_propagation_monotonic (1/5) g_triangle g_triangle_after).2.1
      (by with_unfolding_all decide)).2.2,
   ((claim_C9_propagation_monotonic (1/5) g_split g_split_after).2.2.2.1
      (by with_unfolding_all decide) (by with_unfolding_all decide)).2.2,
   (claim_C9_propagation_monotonic (1/5) g_triangle g_triangle).2.2.2.2.1 2 5
      (by with_unfolding_all decide) (by with_unfolding_all decide),
   (claim_C9_propagation_monotonic (1/5) g_split g_split).2.2.2.2.2
      (by with_unfolding_all decide) 3 7
      (by with_unfolding_all decide) (by with_unfolding_all decide)⟩

end Unicycler
